import Mathlib

/-! # Moses2 `HypothesisColl`: the recombination bin

A shallow embedding of `contrib/other-builds/moses2/HypothesisColl.cpp`.

* Hypotheses are immutable records: an address (object identity), the
  equivalence key used by the container's hash and equality, and the future score.
* The unordered set `m_coll` is a list in iteration order; an iterator is a position
  together with the element it points at.
* `m_sortedHypos` is `none` for the `NULL` pointer and `some v` for a built vector.
* Calls to the two collaborators (`Recycler::Recycle`, `ArcLists::Delete`) are
  recorded, in program order, as a list of `Call`s.
* `std::partial_sort` is a parameter constrained by the contract the C++ standard
  gives it; `insertion_partial_sort` is one function meeting that contract.
-/

namespace Moses2

/-! ## Data model -/

/-- Modelled from the spec: `HypothesisBase` is declared in a header that is not part
of the sources at hand. A hypothesis exposes an equivalence key (what the container's
hash and equality look at) and a future score; `addr` is the object's address, so that
two hypotheses with equal key and score are still different objects. -/
structure HypothesisBase (K S : Type) where
  addr : Nat
  key : K
  futureScore : S
deriving DecidableEq

/-- The accessor `HypothesisBase::GetFutureScore`. -/
def HypothesisBase.GetFutureScore {K S : Type} (h : HypothesisBase K S) : S :=
  h.futureScore

/-- Modelled from the spec: `StackAdd`, the pair `(added, other)` that `Add` returns;
`other = none` is the `NULL` pointer. -/
structure StackAdd (K S : Type) where
  added : Bool
  other : Option (HypothesisBase K S)
deriving DecidableEq

/-- An iterator into `m_coll`: the position and the element stored there. -/
structure Iterator (K S : Type) where
  pos : Nat
  deref : HypothesisBase K S
deriving DecidableEq

/-- The bin: the deduplicating container and the lazily built sorted vector. -/
structure HypothesisColl (K S : Type) where
  m_coll : List (HypothesisBase K S)
  m_sortedHypos : Option (List (HypothesisBase K S))
deriving DecidableEq

/-- The two options `SortAndPruneHypos` reads through the manager:
`mgr.system.options.search.stack_size` and `mgr.system.options.nbest.nbest_size`. -/
structure ManagerBase where
  stack_size : Nat
  nbest_size : Nat
deriving DecidableEq

/-- A call made on a collaborator: `recycler.Recycle(hypo)` or `arcLists.Delete(hypo)`. -/
inductive Call (K S : Type) where
  | Recycle (hypo : HypothesisBase K S)
  | Delete (hypo : HypothesisBase K S)
deriving DecidableEq

/-- How the execution of a statement ends: a `return` statement at the given source
line was executed, in the given state and with the given value; or the statement ended
without a `return`, in the given state; or the execution failed. -/
inductive Exit (σ ρ : Type) where
  | returned (line : Nat) (state : σ) (value : ρ)
  | fellThrough (state : σ)
  | failed (why : String)
deriving DecidableEq

/-- The statements a function body is made of, over states `σ` and returned values `ρ`:
a declaration or assignment (`none` when its behaviour is undefined), a `return` at a
source line, an `if`/`else`, a sequence of two statements, and `assert(false)`. -/
inductive Stmt (σ ρ : Type) where
  | effect (f : σ → Option σ)
  | ret (line : Nat) (value : σ → Option ρ)
  | ifElse (cond : σ → Option Bool) (thenBranch elseBranch : Stmt σ ρ)
  | seq (first second : Stmt σ ρ)
  | assertFalse

/-- The state a call of `Add` works on: the two data members of the bin, the argument
`hypo`, and the locals `addRet` (the iterator, as a position in the container, and the
flag) and `hypoExisting`, each `none` until it is declared. -/
structure AddFrame (K S : Type) where
  m_coll : List (HypothesisBase K S)
  m_sortedHypos : Option (List (HypothesisBase K S))
  hypo : HypothesisBase K S
  addRet : Option (Nat × Bool)
  hypoExisting : Option (HypothesisBase K S)
deriving DecidableEq

section Defs

variable {K S : Type} [DecidableEq K] [LinearOrder S]

/-! ## The container `_HCType` -/

/-- Modelled from the spec: lookup in the unordered set `_HCType`, whose hash and
equality compare equivalence keys. Returns the iterator to the element with key `k`. -/
def _HCType.find (k : K) : List (HypothesisBase K S) → Option (Iterator K S)
  | [] => none
  | e :: es =>
    if e.key = k then some ⟨0, e⟩
    else (_HCType.find k es).map (fun it => ⟨it.pos + 1, it.deref⟩)

/-- Modelled from the spec: `m_coll.insert(hypo)`. When an element with an equal key is
present nothing is inserted and the result is `(iterator to it, false)`; otherwise `hypo`
is inserted and the result is `(iterator to hypo, true)`. Where a new element lands in
iteration order is left open by the container; here it goes last. -/
def _HCType.insert (coll : List (HypothesisBase K S)) (hypo : HypothesisBase K S) :
    List (HypothesisBase K S) × Iterator K S × Bool :=
  match _HCType.find hypo.key coll with
  | some it => (coll, it, false)
  | none => (coll ++ [hypo], ⟨coll.length, hypo⟩, true)

/-! ## `HypothesisColl` operations -/

/-- The constructor: an empty container and `m_sortedHypos(NULL)`. -/
def HypothesisColl.empty : HypothesisColl K S := ⟨[], none⟩

/-- The member function `HypothesisColl::Add`. -/
def HypothesisColl.Add (c : HypothesisColl K S) (hypo : HypothesisBase K S) :
    HypothesisColl K S × StackAdd K S :=
  let addRet := _HCType.insert c.m_coll hypo
  -- CHECK RECOMBINATION
  if addRet.2.2 then
    -- equiv hypo doesn't exists
    ({ c with m_coll := addRet.1 }, ⟨true, none⟩)
  else
    let hypoExisting := addRet.2.1.deref
    if hypo.GetFutureScore > hypoExisting.GetFutureScore then
      -- incoming hypo is better than the one we have
      ({ c with m_coll := addRet.1.set addRet.2.1.pos hypo }, ⟨true, some hypoExisting⟩)
    else
      -- already storing the best hypo. discard incoming hypo
      ({ c with m_coll := addRet.1 }, ⟨false, some hypoExisting⟩)

/-- The member function `HypothesisColl::Clear`. -/
def HypothesisColl.Clear (c : HypothesisColl K S) : HypothesisColl K S :=
  { c with m_sortedHypos := none, m_coll := [] }

/-- The bin's member for key `k`: the element the container finds under `k`. -/
def HypothesisColl.member (c : HypothesisColl K S) (k : K) : Option (HypothesisBase K S) :=
  (_HCType.find k c.m_coll).map Iterator.deref

/-! ## Sorting and pruning -/

/-- Modelled from the spec: the comparator `HypothesisFutureScoreOrderer`, declared
outside the sources at hand; it orders by future score, descending: `a` goes before `b`
when `a`'s future score is greater. -/
def HypothesisFutureScoreOrderer (a b : HypothesisBase K S) : Bool :=
  decide (a.GetFutureScore > b.GetFutureScore)

/-- What the C++ standard asks of a comparator: a strict weak ordering. -/
def StrictWeakOrdering {α : Type} (comp : α → α → Bool) : Prop :=
  (∀ a, comp a a = false) ∧
  (∀ a b c, comp a b = true → comp b c = true → comp a c = true) ∧
  (∀ a b c, comp a b = false → comp b a = false → comp b c = false → comp c b = false →
    comp a c = false ∧ comp c a = false)

/-- The contract of `std::partial_sort(first, middle, last, comp)` on a range `xs` with
`middle` at offset `mid`: the range is permuted; `[first, middle)` ends up sorted with
respect to `comp`; and no element left in `[middle, last)` goes before an element of
`[first, middle)`. The order inside `[middle, last)` is unspecified. -/
def PartialSortContract {α : Type} (partial_sort : (α → α → Bool) → Nat → List α → List α) :
    Prop :=
  ∀ comp, StrictWeakOrdering comp → ∀ mid xs, mid ≤ xs.length →
    (partial_sort comp mid xs).Perm xs ∧
    ((partial_sort comp mid xs).take mid).Pairwise (fun a b => comp b a = false) ∧
    (∀ a ∈ (partial_sort comp mid xs).take mid, ∀ b ∈ (partial_sort comp mid xs).drop mid,
      comp b a = false)

/-- Insertion of `a` into a sorted list, after the elements that go before it. -/
def ordered_insert {α : Type} (comp : α → α → Bool) (a : α) : List α → List α
  | [] => [a]
  | b :: bs => if comp a b then a :: b :: bs else b :: ordered_insert comp a bs

/-- Insertion sort with respect to `comp`. -/
def insertion_sort {α : Type} (comp : α → α → Bool) : List α → List α
  | [] => []
  | a :: as => ordered_insert comp a (insertion_sort comp as)

/-- One function that meets `PartialSortContract`: it sorts the whole range. -/
def insertion_partial_sort {α : Type} (comp : α → α → Bool) (_mid : Nat) (xs : List α) :
    List α :=
  insertion_sort comp xs

/-- The pruning loop of `SortAndPruneHypos`,
`for (size_t i = stackSize; i < m_sortedHypos->size(); ++i)`, from index `i` on: the
calls it makes, in order. -/
def pruneLoop (nbest_size : Nat) (m_sortedHypos : List (HypothesisBase K S)) (i : Nat) :
    List (Call K S) :=
  if h : i < m_sortedHypos.length then
    let hypo := m_sortedHypos[i]
    -- recycler.Recycle(hypo), then: delete from arclist
    (Call.Recycle hypo :: (if nbest_size ≠ 0 then [Call.Delete hypo] else []))
      ++ pruneLoop nbest_size m_sortedHypos (i + 1)
  else []
termination_by m_sortedHypos.length - i

/-- The member function `HypothesisColl::SortAndPruneHypos`, on the vector
`m_sortedHypos`: the vector afterwards and the collaborator calls made. -/
def SortAndPruneHypos
    (partial_sort : (HypothesisBase K S → HypothesisBase K S → Bool) → Nat →
      List (HypothesisBase K S) → List (HypothesisBase K S))
    (mgr : ManagerBase) (m_sortedHypos : List (HypothesisBase K S)) :
    List (HypothesisBase K S) × List (Call K S) :=
  let stackSize := mgr.stack_size
  let iterMiddle :=
    if stackSize = 0 ∨ m_sortedHypos.length < stackSize then m_sortedHypos.length
    else stackSize
  let sorted := partial_sort HypothesisFutureScoreOrderer iterMiddle m_sortedHypos
  -- prune
  if stackSize ≠ 0 ∧ sorted.length > stackSize then
    (sorted.take stackSize, pruneLoop mgr.nbest_size sorted stackSize)
  else
    (sorted, [])

/-- What a call of `GetSortedAndPruneHypos` leaves behind: the bin afterwards (the
vector `m_sortedHypos` is mutable), the vector returned by reference, and the
collaborator calls made. -/
structure Sorted (K S : Type) where
  coll : HypothesisColl K S
  hypos : List (HypothesisBase K S)
  calls : List (Call K S)

/-- The member function `HypothesisColl::GetSortedAndPruneHypos`. -/
def HypothesisColl.GetSortedAndPruneHypos
    (partial_sort : (HypothesisBase K S → HypothesisBase K S → Bool) → Nat →
      List (HypothesisBase K S) → List (HypothesisBase K S))
    (mgr : ManagerBase) (c : HypothesisColl K S) : Sorted K S :=
  match c.m_sortedHypos with
  | none =>
    -- create sortedHypos first: a vector of m_coll.size() slots, filled in iteration order
    let r := SortAndPruneHypos partial_sort mgr c.m_coll
    ⟨{ c with m_sortedHypos := some r.1 }, r.1, r.2⟩
  | some sortedHypos => ⟨c, sortedHypos, []⟩

/-- The hypotheses handed to the Recycler, in call order. -/
def recycled : List (Call K S) → List (HypothesisBase K S)
  | [] => []
  | Call.Recycle h :: cs => h :: recycled cs
  | Call.Delete _ :: cs => recycled cs

/-- The hypotheses whose arc list was deleted, in call order. -/
def deleted : List (Call K S) → List (HypothesisBase K S)
  | [] => []
  | Call.Recycle _ :: cs => deleted cs
  | Call.Delete h :: cs => h :: deleted cs

/-- The calls the pruning loop makes when it walks the hypotheses `hs` in order. -/
def pruneCalls (nbest_size : Nat) : List (HypothesisBase K S) → List (Call K S)
  | [] => []
  | h :: hs =>
    (Call.Recycle h :: (if nbest_size ≠ 0 then [Call.Delete h] else []))
      ++ pruneCalls nbest_size hs

/-- A sequence of `Add` calls, first to last: the bin afterwards. -/
def HypothesisColl.AddAll (c : HypothesisColl K S) :
    List (HypothesisBase K S) → HypothesisColl K S
  | [] => c
  | h :: hs => HypothesisColl.AddAll (c.Add h).1 hs

/-- A mutating call on the bin. -/
inductive Op (K S : Type) where
  | add (hypo : HypothesisBase K S)
  | clear

/-- A sequence of `Add` and `Clear` calls, first to last: the bin afterwards. -/
def HypothesisColl.run (c : HypothesisColl K S) : List (Op K S) → HypothesisColl K S
  | [] => c
  | Op.add h :: ops => HypothesisColl.run (c.Add h).1 ops
  | Op.clear :: ops => HypothesisColl.run c.Clear ops

/-! ## Control flow of `Add`, and the losers it reports -/

/-- The execution of a statement on a state. A declaration or assignment whose
behaviour is undefined fails; so does a condition or a returned expression that cannot
be evaluated, and so does `assert(false)`. A `return` ends the execution of everything
that follows it; a statement that ends without a `return` hands the state on. -/
def Stmt.run {σ ρ : Type} : Stmt σ ρ → σ → Exit σ ρ
  | Stmt.effect f, s =>
    match f s with
    | some s2 => Exit.fellThrough s2
    | none => Exit.failed "undefined behaviour"
  | Stmt.ret line value, s =>
    match value s with
    | some v => Exit.returned line s v
    | none => Exit.failed "undefined behaviour"
  | Stmt.ifElse cond thenBranch elseBranch, s =>
    match cond s with
    | some true => thenBranch.run s
    | some false => elseBranch.run s
    | none => Exit.failed "undefined behaviour"
  | Stmt.seq first second, s =>
    match first.run s with
    | Exit.fellThrough s2 => second.run s2
    | Exit.returned line s2 v => Exit.returned line s2 v
    | Exit.failed why => Exit.failed why
  | Stmt.assertFalse, _ => Exit.failed "assert(false)"

/-- Source line 25, `addRet = m_coll.insert(hypo)`: the container after the insertion,
and the iterator (as a position in the container) and flag that `insert` returns. -/
def AddFrame.line25 (s : AddFrame K S) : Option (AddFrame K S) :=
  some { s with
    m_coll := (_HCType.insert s.m_coll s.hypo).1
    addRet := some ((_HCType.insert s.m_coll s.hypo).2.1.pos,
      (_HCType.insert s.m_coll s.hypo).2.2) }

/-- Source line 28, the condition `addRet.second`. -/
def AddFrame.cond28 (s : AddFrame K S) : Option Bool :=
  s.addRet.map (fun r => r.2)

/-- Source line 33, `hypoExisting = *addRet.first`: the iterator is dereferenced in the
container; an iterator that points at no element has no value. -/
def AddFrame.line33 (s : AddFrame K S) : Option (AddFrame K S) :=
  match s.addRet with
  | some (pos, _) =>
    match s.m_coll[pos]? with
    | some existing => some { s with hypoExisting := some existing }
    | none => none
  | none => none

/-- Source line 34, the condition
`hypo->GetFutureScore() > hypoExisting->GetFutureScore()`. -/
def AddFrame.cond34 [LinearOrder S] (s : AddFrame K S) : Option Bool :=
  s.hypoExisting.map (fun existing => decide (s.hypo.GetFutureScore > existing.GetFutureScore))

/-- Source lines 36 to 39, the assignment `hypoExisting2 = hypo` through a reference to
`*addRet.first`: the slot the iterator points at is overwritten; an iterator that
points at no slot gives no reference to assign through. -/
def AddFrame.line39 (s : AddFrame K S) : Option (AddFrame K S) :=
  match s.addRet with
  | some (pos, _) =>
    if pos < s.m_coll.length then some { s with m_coll := s.m_coll.set pos s.hypo } else none
  | none => none

/-- The body of `Add`, source lines 25 to 49, statement by statement: the insertion, the
`if`/`else` statement with its three `return` statements, and `assert(false)`. -/
def AddBody : Stmt (AddFrame K S) (StackAdd K S) :=
  Stmt.seq (Stmt.effect AddFrame.line25)
    (Stmt.seq
      (Stmt.ifElse AddFrame.cond28
        (Stmt.ret 30 (fun _ => some ⟨true, none⟩))
        (Stmt.seq (Stmt.effect AddFrame.line33)
          (Stmt.ifElse AddFrame.cond34
            (Stmt.seq (Stmt.effect AddFrame.line39)
              (Stmt.ret 41 (fun s => s.hypoExisting.map (fun existing => ⟨true, some existing⟩))))
            (Stmt.ret 45
              (fun s => s.hypoExisting.map (fun existing => ⟨false, some existing⟩))))))
      Stmt.assertFalse)

/-- A call `Add(hypo)` on the bin `c`, executed statement by statement: the locals
`addRet` and `hypoExisting` start out undeclared. -/
def HypothesisColl.AddRun (c : HypothesisColl K S) (hypo : HypothesisBase K S) :
    Exit (AddFrame K S) (StackAdd K S) :=
  AddBody.run ⟨c.m_coll, c.m_sortedHypos, hypo, none, none⟩

/-- A body like that of `Add` in which the branches of the `if`/`else` do not return:
its execution reaches `assert(false)`. -/
def bodyWithoutReturn : Stmt (AddFrame K S) (StackAdd K S) :=
  Stmt.seq (Stmt.effect AddFrame.line25)
    (Stmt.seq
      (Stmt.ifElse AddFrame.cond28 (Stmt.effect some) (Stmt.effect AddFrame.line33))
      Stmt.assertFalse)

/-- The loser an `Add` result reports for the candidate `hypo`: the `other` hypothesis
when the candidate was kept (none when there is no `other`), the candidate itself when
it was not kept. -/
def StackAdd.loser (r : StackAdd K S) (hypo : HypothesisBase K S) :
    Option (HypothesisBase K S) :=
  if r.added then r.other else some hypo

/-- The losers reported by a sequence of `Add` calls, in call order. -/
def HypothesisColl.losers (c : HypothesisColl K S) :
    List (HypothesisBase K S) → List (HypothesisBase K S)
  | [] => []
  | h :: hs => ((c.Add h).2.loser h).toList ++ HypothesisColl.losers (c.Add h).1 hs

end Defs

/-! ## The scenario of the specification -/

/-- Hypothesis A: key K1, score 5. -/
def hypA : HypothesisBase Nat Int := ⟨1, 1, 5⟩
/-- Hypothesis B: key K1, score 7. -/
def hypB : HypothesisBase Nat Int := ⟨2, 1, 7⟩
/-- Hypothesis C: key K2, score 3. -/
def hypC : HypothesisBase Nat Int := ⟨3, 2, 3⟩
/-- Hypothesis D: key K3, score 1. -/
def hypD : HypothesisBase Nat Int := ⟨4, 3, 1⟩

/-- Hypothesis E: key K1, score 7, the same key and score as B. -/
def hypE : HypothesisBase Nat Int := ⟨5, 1, 7⟩

/-- The bin after offering A and building the sorted vector with unbounded stack size:
the container holds A and the cached vector is `[A]`. -/
def binAfterBuild : HypothesisColl Nat Int :=
  ((HypothesisColl.empty.Add hypA).1.GetSortedAndPruneHypos insertion_partial_sort ⟨0, 0⟩).coll

/-- The bin of the scenario after offering A, B, C and D: its members are B, C and D. -/
def binBCD : HypothesisColl Nat Int :=
  HypothesisColl.empty.AddAll [hypA, hypB, hypC, hypD]

end Moses2

/-! # The MERT utility: `Scorer` and `FeatureData`

A shallow embedding of the member functions of `trunk/mert/Scorer.h` and
`trunk/mert/FeatureData.h` that have a body in the header.

* A C++ `string` that is tokenised is a list of characters.
* A `map` is an association list; `find` is a lookup by key, `size` the number of
  entries, and an assignment `m[k] = v` for an absent key adds the entry `(k, v)`.
* A call ends in an `Outcome`: it returns, it throws, or its behaviour is undefined.
* An `int` has 32 bits.
-/

namespace Mert

/-- How a call ends: it returns a value, it throws a `runtime_error` with the message
`what`, or its behaviour is undefined. -/
inductive Outcome (α : Type) where
  | returned (value : α)
  | thrown (what : String)
  | undefined
deriving DecidableEq

/-! ## `Scorer` -/

/-- The candidate indices of `Types.h`, which is not among the sources at hand; `score`
does not look at them. -/
abbrev candidates_t : Type := List Nat

/-- The diffs of `Types.h`, which is not among the sources at hand; `score` only takes
their number, `diffs.size()`. -/
abbrev diffs_t : Type := List (List (Nat × Nat))

/-- The data members of `Scorer`. `_scoreData` is a pointer, `none` being the null
pointer; the type `D` of what it points to is a parameter. -/
structure Scorer (D : Type) where
  _name : String
  _scoreData : Option D
  _encodings : List (List Char × Int)
  _preserveCase : Bool

/-- The constructor: `_name(name), _scoreData(0), _preserveCase(false)`, and an empty
encodings table. -/
def Scorer.new {D : Type} (name : String) : Scorer D := ⟨name, none, [], false⟩

/-- The member function `setScoreData`. -/
def Scorer.setScoreData {D : Type} (s : Scorer D) (data : Option D) : Scorer D :=
  { s with _scoreData := data }

/-- The loop `for (size_t i = 0; i < diffs.size(); ++i) scores.push_back(0)` of `score`,
from index `i` on, with `n` for `diffs.size()`. -/
def Scorer.scoreLoop {F : Type} [Zero F] (n i : Nat) (scores : List F) : List F :=
  if i < n then Scorer.scoreLoop n (i + 1) (scores ++ [0]) else scores
termination_by n - i

/-- The three-argument `score` of the base class: the vector `scores` afterwards and how
the call ends. -/
def Scorer.score {D F : Type} [Zero F] (s : Scorer D) (_candidates : candidates_t)
    (diffs : diffs_t) (scores : List F) : List F × Outcome Unit :=
  -- dummy impl
  if s._scoreData.isNone then
    (scores, Outcome.thrown "score data not loaded")
  else
    (Scorer.scoreLoop diffs.length 0 (scores ++ [0]), Outcome.returned ())

/-- The one-argument `score`: it calls the three-argument `score` on an empty `diffs`
and an empty `scores`, and returns `scores[0]`. Reading `scores[0]` from an empty vector
is undefined behaviour. -/
def Scorer.scoreCandidates {D F : Type} [Zero F] (s : Scorer D) (candidates : candidates_t) :
    Outcome F :=
  match s.score candidates [] ([] : List F) with
  | (scores, Outcome.returned _) =>
    match scores with
    | x :: _ => Outcome.returned x
    | [] => Outcome.undefined
  | (_, Outcome.thrown what) => Outcome.thrown what
  | (_, Outcome.undefined) => Outcome.undefined

/-- The classification `isspace` of the C locale, which the stream extraction uses to
delimit tokens: the space and the characters 9 to 13. -/
def isspace (c : Char) : Bool := c.toNat = 32 || (9 ≤ c.toNat && c.toNat ≤ 13)

/-- The function `tolower` of the C locale: the letters `A` to `Z` go to `a` to `z`, every
other character stays. -/
def tolower (c : Char) : Char :=
  if 65 ≤ c.toNat ∧ c.toNat ≤ 90 then Char.ofNat (c.toNat + 32) else c

/-- The conversion `(int)n` of a `size_t`: the value modulo `2^32`, read as a 32-bit
two's complement number. -/
def toInt (n : Nat) : Int := ((n + 2147483648) % 4294967296 : Nat) - 2147483648

/-- The extraction `in >> token`: leading whitespace is skipped, then characters are
read up to the next whitespace or the end of the stream. The result is the token and
the rest of the stream, or `none` when the extraction fails because nothing but
whitespace was left. -/
def extract (stream : List Char) : Option (List Char × List Char) :=
  match stream.dropWhile isspace with
  | [] => none
  | c :: cs => some (c :: cs.takeWhile (fun x => !isspace x), cs.dropWhile (fun x => !isspace x))

/-- The lookup `_encodings.find(token)`: the code stored for the token, or `none` for
`_encodings.end()`. -/
def find : List (List Char × Int) → List Char → Option Int
  | [], _ => none
  | (key, code) :: rest, token => if key = token then some code else find rest token

/-- The normalisation at the head of the loop body of `encode`: every character of the
token is replaced by its `tolower` unless `_preserveCase` is set. -/
def normalise (preserveCase : Bool) (token : List Char) : List Char :=
  if !preserveCase then token.map tolower else token

/-- The body of the loop of `encode` for one extracted token, on the encodings table and
the vector `encoded`. -/
def Scorer.encodeToken (preserveCase : Bool) (token : List Char)
    (st : List (List Char × Int) × List Int) : List (List Char × Int) × List Int :=
  let token := normalise preserveCase token
  match find st.1 token with
  | none =>
    let encoded_token := toInt st.1.length
    (st.1 ++ [(token, encoded_token)], st.2 ++ [encoded_token])
  | some encoded_token => (st.1, st.2 ++ [encoded_token])

set_option linter.unusedVariables false in
/-- The loop `while (in >> token)` of `encode`. -/
def Scorer.encodeLoop (preserveCase : Bool) (stream : List Char)
    (st : List (List Char × Int) × List Int) : List (List Char × Int) × List Int :=
  match h : extract stream with
  | none => st
  | some (token, rest) =>
    Scorer.encodeLoop preserveCase rest (Scorer.encodeToken preserveCase token st)
termination_by stream.length
decreasing_by
  simp only [extract] at h
  split at h
  · exact absurd h (by simp)
  · rename_i c cs hc
    have hrest : rest = cs.dropWhile (fun x => !isspace x) := by
      simp only [Option.some.injEq, Prod.mk.injEq] at h
      exact h.2.symm
    have h1 : rest.length ≤ cs.length := by
      rw [hrest]
      exact (List.dropWhile_sublist _).length_le
    have h2 : (c :: cs).length ≤ stream.length := by
      rw [← hc]
      exact (List.dropWhile_sublist _).length_le
    simp only [List.length_cons] at h2
    omega

/-- The member function `encode`: the scorer afterwards and the vector `encoded`
afterwards. -/
def Scorer.encode {D : Type} (s : Scorer D) (line : List Char) (encoded : List Int) :
    Scorer D × List Int :=
  ({ s with _encodings := (Scorer.encodeLoop s._preserveCase line (s._encodings, encoded)).1 },
    (Scorer.encodeLoop s._preserveCase line (s._encodings, encoded)).2)

/-- A sequence of `encode` calls, first to last, each on an empty vector: the scorer
afterwards and the vector of each call. -/
def Scorer.encodeAll {D : Type} (s : Scorer D) : List (List Char) → Scorer D × List (List Int)
  | [] => (s, [])
  | line :: lines =>
    ((Scorer.encodeAll (s.encode line []).1 lines).1,
      (s.encode line []).2 :: (Scorer.encodeAll (s.encode line []).1 lines).2)

/-- The code the encodings table of a scorer holds for a token, after normalisation. -/
def Scorer.code {D : Type} (s : Scorer D) (token : List Char) : Option Int :=
  find s._encodings (normalise s._preserveCase token)

/-- The whitespace-separated tokens of a line: the line is split at every whitespace
character and the empty pieces are dropped. -/
def tokens (line : List Char) : List (List Char) :=
  (line.splitOnP isspace).filter (fun t => !t.isEmpty)

/-- A list of tokens extended by a token unless it is already there. -/
def addFirst (seen : List (List Char)) (t : List Char) : List (List Char) :=
  if t ∈ seen then seen else seen ++ [t]

/-- The distinct normalised tokens of a sequence of lines, in the order in which they
are first seen. -/
def distinctTokens (preserveCase : Bool) (lines : List (List Char)) : List (List Char) :=
  ((lines.flatMap tokens).map (normalise preserveCase)).foldl addFirst []

/-- The position of the first occurrence of a token in a list of tokens, counted from 0
(the length of the list when the token does not occur). -/
def position (t : List Char) : List (List Char) → Nat
  | [] => 0
  | u :: us => if u = t then 0 else position t us + 1

/-- The encodings table that gives the tokens of `seen`, in order, the codes `(int)n`,
`(int)(n + 1)`, and so on. -/
def codeTable (n : Nat) : List (List Char) → List (List Char × Int)
  | [] => []
  | t :: ts => (t, toInt n) :: codeTable (n + 1) ts

/-- The token number `i` of the large input: the 32 binary digits of `i`, lowest first,
written with `a` for 0 and `b` for 1. -/
def binaryToken (i : Nat) : List Char :=
  (List.range 32).map (fun j => if i.testBit j then Char.ofNat 98 else Char.ofNat 97)

/-- A large input: `2^31 + 1` lines, line number `i` being the single token
`binaryToken i`. -/
def manyLines : List (List Char) := (List.range 2147483649).map binaryToken

/-! ## `FeatureData` -/

/-- The two index maps of `FeatureData`; the types `idx2name` and `name2idx` are
declared in a header that is not among the sources at hand, and are taken to be maps
from index to name and from name to index. -/
structure FeatureData where
  idx2arrayname_ : List (Nat × String)
  arrayname2idx_ : List (String × Int)

/-- The member function `getIndex(const std::string&)`: the index stored for the name,
or -1 when the map has no entry for it. -/
def FeatureData.getIndexOfName (fd : FeatureData) (idx : String) : Int :=
  match fd.arrayname2idx_.lookup idx with
  | some second => second
  | none => -1

/-- The expression `literal + idx` for a string literal and a `size_t`: pointer
arithmetic, which yields the literal from offset `idx` on when `idx` is at most the
length of the literal, and has undefined behaviour as a message otherwise. -/
def literalPlus (literal : String) (idx : Nat) : Option String :=
  if idx ≤ literal.length then some (String.mk (literal.toList.drop idx)) else none

/-- The member function `getIndex(size_t)`. When `find` returns an iterator other than
`end()` the function throws; otherwise it returns `i->second` for `i == end()`, which
is undefined behaviour. -/
def FeatureData.getIndex (fd : FeatureData) (idx : Nat) : Outcome String :=
  match fd.idx2arrayname_.lookup idx with
  | some _ =>
    match literalPlus "there is no entry at index " idx with
    | some what => Outcome.thrown what
    | none => Outcome.undefined
  | none => Outcome.undefined

end Mert

namespace Moses2

/-! ## Lemmas on the container -/

section ContainerLemmas

variable {K S : Type} [DecidableEq K]

theorem find_eq_none_iff (k : K) (l : List (HypothesisBase K S)) :
    _HCType.find k l = none ↔ ∀ e ∈ l, e.key ≠ k := by
  induction l with
  | nil => simp [_HCType.find]
  | cons e es ih =>
    by_cases hk : e.key = k
    · simp [_HCType.find, hk]
    · simp [_HCType.find, hk, ih]

theorem find_some_key {k : K} {l : List (HypothesisBase K S)} {it : Iterator K S}
    (h : _HCType.find k l = some it) : it.deref.key = k := by
  induction l generalizing it with
  | nil => simp [_HCType.find] at h
  | cons e es ih =>
    by_cases hk : e.key = k
    · simp [_HCType.find, hk] at h
      subst h
      exact hk
    · simp only [_HCType.find, hk, if_false, Option.map_eq_some'] at h
      obtain ⟨it', h', rfl⟩ := h
      exact @ih it' h'

theorem find_some_get {k : K} {l : List (HypothesisBase K S)} {it : Iterator K S}
    (h : _HCType.find k l = some it) : l[it.pos]? = some it.deref := by
  induction l generalizing it with
  | nil => simp [_HCType.find] at h
  | cons e es ih =>
    by_cases hk : e.key = k
    · simp [_HCType.find, hk] at h
      subst h
      simp
    · simp only [_HCType.find, hk, if_false, Option.map_eq_some'] at h
      obtain ⟨it', h', rfl⟩ := h
      simpa using ih h'

theorem find_some_mem {k : K} {l : List (HypothesisBase K S)} {it : Iterator K S}
    (h : _HCType.find k l = some it) : it.deref ∈ l :=
  List.getElem?_mem (find_some_get h)

/-- Lookup after the in-place overwrite of the slot found for `hypo`'s key. -/
theorem find_set {l : List (HypothesisBase K S)} {hypo : HypothesisBase K S}
    {it : Iterator K S} (h : _HCType.find hypo.key l = some it) (k : K) :
    _HCType.find k (l.set it.pos hypo) =
      if k = hypo.key then some ⟨it.pos, hypo⟩ else _HCType.find k l := by
  induction l generalizing it with
  | nil => simp [_HCType.find] at h
  | cons e es ih =>
    by_cases hk : e.key = hypo.key
    · simp [_HCType.find, hk] at h
      subst h
      by_cases hkk : k = hypo.key
      · simp [_HCType.find, hkk]
      · have hne : ¬ hypo.key = k := fun h => hkk h.symm
        have hne' : ¬ e.key = k := fun h => hkk (hk ▸ h.symm)
        simp [_HCType.find, hkk, hne, hne']
    · simp only [_HCType.find, hk, if_false, Option.map_eq_some'] at h
      obtain ⟨it', h', rfl⟩ := h
      have := ih h'
      by_cases hkk : k = hypo.key
      · subst hkk
        simp [_HCType.find, hk, this]
      · by_cases hek : e.key = k
        · simp [_HCType.find, hkk, hek]
        · simp [_HCType.find, hkk, hek, this]

/-- Lookup after the insertion of a hypothesis whose key was absent. -/
theorem find_append {l : List (HypothesisBase K S)} {hypo : HypothesisBase K S}
    (h : _HCType.find hypo.key l = none) (k : K) :
    _HCType.find k (l ++ [hypo]) =
      if k = hypo.key then some ⟨l.length, hypo⟩ else _HCType.find k l := by
  induction l with
  | nil =>
    by_cases hkk : k = hypo.key
    · simp [_HCType.find, hkk]
    · have hne : ¬ hypo.key = k := fun h => hkk h.symm
      simp [_HCType.find, hkk, hne]
  | cons e es ih =>
    have hk : ¬ e.key = hypo.key := by
      intro hk
      simp [_HCType.find, hk] at h
    have h' : _HCType.find hypo.key es = none := by
      simpa [_HCType.find, hk] using h
    have := ih h'
    by_cases hkk : k = hypo.key
    · subst hkk
      simp [_HCType.find, hk, this]
    · by_cases hek : e.key = k
      · simp [_HCType.find, hkk, hek]
      · simp [_HCType.find, hkk, hek, this]

/-- The in-place overwrite of the slot found for `hypo`'s key keeps the list of keys. -/
theorem keys_set {l : List (HypothesisBase K S)} {hypo : HypothesisBase K S}
    {it : Iterator K S} (h : _HCType.find hypo.key l = some it) :
    (l.set it.pos hypo).map HypothesisBase.key = l.map HypothesisBase.key := by
  induction l generalizing it with
  | nil => simp [_HCType.find] at h
  | cons e es ih =>
    by_cases hk : e.key = hypo.key
    · simp [_HCType.find, hk] at h
      subst h
      simp [hk]
    · simp only [_HCType.find, hk, if_false, Option.map_eq_some'] at h
      obtain ⟨it', h', rfl⟩ := h
      simpa using @ih it' h'

variable [LinearOrder S]

/-- `Add` when no element has the candidate's key. -/
theorem Add_of_absent {c : HypothesisColl K S} {hypo : HypothesisBase K S}
    (h : _HCType.find hypo.key c.m_coll = none) :
    c.Add hypo = (⟨c.m_coll ++ [hypo], c.m_sortedHypos⟩, ⟨true, none⟩) := by
  simp [HypothesisColl.Add, _HCType.insert, h]

/-- `Add` when the incumbent scores strictly less than the candidate. -/
theorem Add_of_better {c : HypothesisColl K S} {hypo : HypothesisBase K S}
    {it : Iterator K S} (h : _HCType.find hypo.key c.m_coll = some it)
    (hs : it.deref.futureScore < hypo.futureScore) :
    c.Add hypo = (⟨c.m_coll.set it.pos hypo, c.m_sortedHypos⟩, ⟨true, some it.deref⟩) := by
  simp [HypothesisColl.Add, _HCType.insert, h, HypothesisBase.GetFutureScore, hs]

/-- `Add` when the incumbent scores at least as much as the candidate. -/
theorem Add_of_not_better {c : HypothesisColl K S} {hypo : HypothesisBase K S}
    {it : Iterator K S} (h : _HCType.find hypo.key c.m_coll = some it)
    (hs : ¬ it.deref.futureScore < hypo.futureScore) :
    c.Add hypo = (c, ⟨false, some it.deref⟩) := by
  simp [HypothesisColl.Add, _HCType.insert, h, HypothesisBase.GetFutureScore, hs]

/-- The three ways through `Add`: a new key, a better candidate, a candidate that is not
better. -/
theorem Add_cases (c : HypothesisColl K S) (hypo : HypothesisBase K S) :
    (_HCType.find hypo.key c.m_coll = none ∧
      c.Add hypo = (⟨c.m_coll ++ [hypo], c.m_sortedHypos⟩, ⟨true, none⟩)) ∨
    (∃ it, _HCType.find hypo.key c.m_coll = some it ∧
      it.deref.futureScore < hypo.futureScore ∧
      c.Add hypo = (⟨c.m_coll.set it.pos hypo, c.m_sortedHypos⟩, ⟨true, some it.deref⟩)) ∨
    (∃ it, _HCType.find hypo.key c.m_coll = some it ∧
      ¬ it.deref.futureScore < hypo.futureScore ∧
      c.Add hypo = (c, ⟨false, some it.deref⟩)) := by
  cases h : _HCType.find hypo.key c.m_coll with
  | none => exact Or.inl ⟨rfl, Add_of_absent h⟩
  | some it =>
    by_cases hs : it.deref.futureScore < hypo.futureScore
    · exact Or.inr (Or.inl ⟨it, rfl, hs, Add_of_better h hs⟩)
    · exact Or.inr (Or.inr ⟨it, rfl, hs, Add_of_not_better h hs⟩)

/-- The member for a key after an `Add` that kept the candidate. -/
theorem member_Add_of_added {c : HypothesisColl K S} {hypo : HypothesisBase K S}
    (h : (c.Add hypo).2.added = true) (k : K) :
    (c.Add hypo).1.member k = if k = hypo.key then some hypo else c.member k := by
  rcases Add_cases c hypo with ⟨hf, he⟩ | ⟨it, hf, _, he⟩ | ⟨it, _, _, he⟩
  · rw [he]
    simp only [HypothesisColl.member, find_append hf k]
    split <;> rfl
  · rw [he]
    simp only [HypothesisColl.member, find_set hf k]
    split <;> rfl
  · rw [he] at h
    simp at h

/-- An `Add` that did not keep the candidate leaves the bin as it was. -/
theorem Add_of_not_added {c : HypothesisColl K S} {hypo : HypothesisBase K S}
    (h : (c.Add hypo).2.added = false) :
    (c.Add hypo).1 = c ∧ ∃ e, c.member hypo.key = some e ∧ (c.Add hypo).2.other = some e ∧
      ¬ e.futureScore < hypo.futureScore := by
  rcases Add_cases c hypo with ⟨_, he⟩ | ⟨it, _, _, he⟩ | ⟨it, hf, hs, he⟩
  · rw [he] at h
    simp at h
  · rw [he] at h
    simp at h
  · rw [he]
    exact ⟨rfl, it.deref, by simp [HypothesisColl.member, hf], rfl, hs⟩

/-- `Add` never touches the cached vector. -/
theorem Add_m_sortedHypos (c : HypothesisColl K S) (hypo : HypothesisBase K S) :
    (c.Add hypo).1.m_sortedHypos = c.m_sortedHypos := by
  rcases Add_cases c hypo with ⟨_, he⟩ | ⟨it, _, _, he⟩ | ⟨it, _, _, he⟩ <;> rw [he]

/-- `other` is the member found under the candidate's key before the call. -/
theorem Add_other (c : HypothesisColl K S) (hypo : HypothesisBase K S) :
    (c.Add hypo).2.other = c.member hypo.key := by
  rcases Add_cases c hypo with ⟨hf, he⟩ | ⟨it, hf, _, he⟩ | ⟨it, hf, _, he⟩ <;>
    simp [he, HypothesisColl.member, hf]

end ContainerLemmas

/-! ## `Add`: result and displaced hypothesis -/

section AddTheorems

variable {K S : Type} [DecidableEq K] [LinearOrder S]

/-- C1: when the candidate's key already has an incumbent member, `Add` returns
`(true, incumbent)` and the member for that key becomes the candidate if the candidate's
future score is strictly greater than the incumbent's; otherwise it returns
`(false, incumbent)` and the bin is exactly what it was before. -/
theorem Add_incumbent_result (c : HypothesisColl K S) (hypo incumbent : HypothesisBase K S)
    (h : c.member hypo.key = some incumbent) :
    (hypo.futureScore > incumbent.futureScore →
      (c.Add hypo).2 = ⟨true, some incumbent⟩ ∧ (c.Add hypo).1.member hypo.key = some hypo) ∧
    (¬ hypo.futureScore > incumbent.futureScore →
      (c.Add hypo).2 = ⟨false, some incumbent⟩ ∧ (c.Add hypo).1 = c) := by
  obtain ⟨it, hf, hd⟩ : ∃ it, _HCType.find hypo.key c.m_coll = some it ∧
      it.deref = incumbent := by
    simpa [HypothesisColl.member] using h
  subst hd
  refine ⟨fun hs => ?_, fun hs => ?_⟩
  · have he := Add_of_better hf hs
    refine ⟨by rw [he], ?_⟩
    have := @member_Add_of_added K S _ _ c hypo (by rw [he]) hypo.key
    simpa using this
  · have he := Add_of_not_better hf hs
    exact ⟨by rw [he], by rw [he]⟩

/-- C1, at the scenario of the specification: offering A(K1, 5), B(K1, 7), C(K2, 3) in
order yields `(true, none)`, `(true, A)`, `(true, none)`; the second call is the case of
a strictly better candidate with incumbent A. -/
theorem Add_incumbent_result_witness :
    (HypothesisColl.empty.Add hypA).2 = ⟨true, none⟩ ∧
    ((HypothesisColl.empty.Add hypA).1.Add hypB).2 = ⟨true, some hypA⟩ ∧
    (((HypothesisColl.empty.Add hypA).1.Add hypB).1.Add hypC).2 = ⟨true, none⟩ ∧
    (HypothesisColl.empty.Add hypA).1.member hypB.key = some hypA ∧
    ((hypB.futureScore > hypA.futureScore →
      ((HypothesisColl.empty.Add hypA).1.Add hypB).2 = ⟨true, some hypA⟩ ∧
      ((HypothesisColl.empty.Add hypA).1.Add hypB).1.member hypB.key = some hypB) ∧
    (¬ hypB.futureScore > hypA.futureScore →
      ((HypothesisColl.empty.Add hypA).1.Add hypB).2 = ⟨false, some hypA⟩ ∧
      ((HypothesisColl.empty.Add hypA).1.Add hypB).1 = (HypothesisColl.empty.Add hypA).1)) :=
  ⟨by decide, by decide, by decide, by decide,
    Add_incumbent_result (HypothesisColl.empty.Add hypA).1 hypB hypA (by decide)⟩

/-- C6 (as amended): the hypothesis `Add` returns in `other` is the incumbent, the bin's
member for the candidate's key before the call, and it is `none` exactly when no
element had the candidate's key. When the candidate is kept, the member for its key
after the call is the candidate and `other` is not the candidate; when the candidate is
not kept, `other` is still the bin's member for that key after the call, and the bin is
unchanged. -/
theorem Add_other_is_incumbent (c : HypothesisColl K S) (hypo : HypothesisBase K S) :
    (c.Add hypo).2.other = c.member hypo.key ∧
    ((c.Add hypo).2.other = none ↔ ∀ e ∈ c.m_coll, e.key ≠ hypo.key) ∧
    ((c.Add hypo).2.added = true →
      (c.Add hypo).1.member hypo.key = some hypo ∧ (c.Add hypo).2.other ≠ some hypo) ∧
    ((c.Add hypo).2.added = false →
      (c.Add hypo).2.other ≠ none ∧ (c.Add hypo).1.member hypo.key = (c.Add hypo).2.other ∧
      (c.Add hypo).1 = c) := by
  refine ⟨Add_other c hypo, ?_, fun h => ⟨?_, ?_⟩, fun h => ?_⟩
  · rw [Add_other, ← find_eq_none_iff]
    simp [HypothesisColl.member]
  · simpa using member_Add_of_added h hypo.key
  · rcases Add_cases c hypo with ⟨_, he⟩ | ⟨it, _, hs, he⟩ | ⟨it, _, _, he⟩
    · simp [he]
    · rw [he]
      intro heq
      have : it.deref = hypo := by simpa using heq
      rw [this] at hs
      exact lt_irrefl _ hs
    · rw [he] at h
      simp at h
  · obtain ⟨hc, e, hm, ho, _⟩ := Add_of_not_added h
    refine ⟨by simp [ho], ?_, hc⟩
    rw [hc, hm, ho]

/-- C6, as stated, fails when the candidate is rejected: with B(K1, 7) in the bin,
offering A(K1, 5) returns `(false, B)`, and B, the hypothesis in the `other` slot, is
the bin's member for K1 after the call. -/
theorem Add_other_still_member :
    ((HypothesisColl.empty.Add hypB).1.Add hypA).2 = ⟨false, some hypB⟩ ∧
    ((HypothesisColl.empty.Add hypB).1.Add hypA).1.member hypA.key = some hypB ∧
    ¬ (((HypothesisColl.empty.Add hypB).1.Add hypA).1.member hypA.key ≠
        ((HypothesisColl.empty.Add hypB).1.Add hypA).2.other) := by
  decide

end AddTheorems

/-! ## Invariants of sequences of `Add` calls -/

section Invariants

variable {K S : Type} [DecidableEq K] [LinearOrder S]

/-- One `Add` keeps the keys of the container pairwise different. -/
theorem Add_keys_nodup {c : HypothesisColl K S} (hypo : HypothesisBase K S)
    (h : (c.m_coll.map HypothesisBase.key).Nodup) :
    ((c.Add hypo).1.m_coll.map HypothesisBase.key).Nodup := by
  rcases Add_cases c hypo with ⟨hf, he⟩ | ⟨it, hf, _, he⟩ | ⟨it, _, _, he⟩
  · rw [he]
    simp only [List.map_append, List.map_cons, List.map_nil]
    refine List.Nodup.append h (List.nodup_singleton _) ?_
    rw [List.disjoint_singleton]
    intro hmem
    obtain ⟨e, he', hk⟩ := List.mem_map.1 hmem
    exact (find_eq_none_iff _ _).1 hf e he' hk
  · rw [he]
    simpa [keys_set hf] using h
  · rw [he]
    exact h

/-- A sequence of `Add` and `Clear` calls keeps the keys pairwise different. -/
theorem run_keys_nodup (ops : List (Op K S)) (c : HypothesisColl K S)
    (h : (c.m_coll.map HypothesisBase.key).Nodup) :
    ((c.run ops).m_coll.map HypothesisBase.key).Nodup := by
  induction ops generalizing c with
  | nil => exact h
  | cons op ops ih =>
    cases op with
    | add hypo => exact ih _ (Add_keys_nodup hypo h)
    | clear => exact ih _ (by simp [HypothesisColl.Clear])

/-- C2: starting from the empty bin, after every finite sequence of `Add` and `Clear`
calls the keys of the container's members are pairwise different, so two members with
equal keys are the same member; and each single `Add`, the in-place replacement
included, preserves this. -/
theorem uniqueness_invariant (ops : List (Op K S)) :
    (((HypothesisColl.empty : HypothesisColl K S).run ops).m_coll.map
      HypothesisBase.key).Nodup ∧
    (∀ a ∈ ((HypothesisColl.empty : HypothesisColl K S).run ops).m_coll,
      ∀ b ∈ ((HypothesisColl.empty : HypothesisColl K S).run ops).m_coll,
        a.key = b.key → a = b) ∧
    (∀ (c : HypothesisColl K S) (hypo : HypothesisBase K S),
      (c.m_coll.map HypothesisBase.key).Nodup →
      ((c.Add hypo).1.m_coll.map HypothesisBase.key).Nodup) := by
  have h := run_keys_nodup ops (HypothesisColl.empty : HypothesisColl K S)
    (by simp [HypothesisColl.empty])
  exact ⟨h, fun a ha b hb hab => List.inj_on_of_nodup_map h ha hb hab,
    fun c hypo hc => Add_keys_nodup hypo hc⟩

/-- After `Add`, the candidate's key has a member scoring at least as much as the
candidate. -/
theorem Add_member_ge (c : HypothesisColl K S) (hypo : HypothesisBase K S) :
    ∃ m, (c.Add hypo).1.member hypo.key = some m ∧ hypo.futureScore ≤ m.futureScore := by
  cases h : (c.Add hypo).2.added with
  | true => exact ⟨hypo, by simpa using member_Add_of_added h hypo.key, le_refl _⟩
  | false =>
    obtain ⟨hc, e, hm, _, hs⟩ := Add_of_not_added h
    exact ⟨e, by rw [hc, hm], not_lt.1 hs⟩

/-- An `Add` never lowers the score of the member of any key. -/
theorem Add_member_mono (c : HypothesisColl K S) (hypo : HypothesisBase K S) {k : K}
    {m : HypothesisBase K S} (hm : c.member k = some m) :
    ∃ m', (c.Add hypo).1.member k = some m' ∧ m.futureScore ≤ m'.futureScore := by
  rcases Add_cases c hypo with ⟨hf, he⟩ | ⟨it, hf, hs, he⟩ | ⟨it, _, _, he⟩
  · have hadd : (c.Add hypo).2.added = true := by rw [he]
    by_cases hk : k = hypo.key
    · subst hk
      simp [HypothesisColl.member, hf] at hm
    · exact ⟨m, by rw [member_Add_of_added hadd k, if_neg hk, hm], le_refl _⟩
  · have hadd : (c.Add hypo).2.added = true := by rw [he]
    by_cases hk : k = hypo.key
    · subst hk
      have : it.deref = m := by simpa [HypothesisColl.member, hf] using hm
      exact ⟨hypo, by rw [member_Add_of_added hadd, if_pos rfl], this ▸ le_of_lt hs⟩
    · exact ⟨m, by rw [member_Add_of_added hadd k, if_neg hk, hm], le_refl _⟩
  · exact ⟨m, by rw [he]; exact hm, le_refl _⟩

/-- A sequence of `Add` calls never lowers the score of the member of any key. -/
theorem AddAll_member_mono (hs : List (HypothesisBase K S)) (c : HypothesisColl K S) {k : K}
    {m : HypothesisBase K S} (hm : c.member k = some m) :
    ∃ m', (c.AddAll hs).member k = some m' ∧ m.futureScore ≤ m'.futureScore := by
  induction hs generalizing c m with
  | nil => exact ⟨m, hm, le_refl _⟩
  | cons h hs ih =>
    obtain ⟨m1, hm1, hle1⟩ := Add_member_mono c h hm
    obtain ⟨m2, hm2, hle2⟩ := ih (c.Add h).1 hm1
    exact ⟨m2, hm2, le_trans hle1 hle2⟩

/-- Every offered hypothesis is dominated by the member of its key. -/
theorem AddAll_member_ge (hs : List (HypothesisBase K S)) (c : HypothesisColl K S)
    {h : HypothesisBase K S} (hmem : h ∈ hs) :
    ∃ m, (c.AddAll hs).member h.key = some m ∧ h.futureScore ≤ m.futureScore := by
  induction hs generalizing c with
  | nil => simp at hmem
  | cons h0 hs ih =>
    rcases List.mem_cons.1 hmem with rfl | hin
    · obtain ⟨m1, hm1, hle1⟩ := Add_member_ge c h
      obtain ⟨m2, hm2, hle2⟩ := AddAll_member_mono hs (c.Add h).1 hm1
      exact ⟨m2, hm2, le_trans hle1 hle2⟩
    · exact ih (c.Add h0).1 hin

/-- C3: for a sequence of `Add` calls on one bin with no `Clear` in between, and two
offered hypotheses `h1`, `h2` with equal keys, once both have been offered (here: after
any sequence `offered` of calls that contains both) that key has a member in the bin
and its future score is at least that of `h1` and at least that of `h2`. -/
theorem best_survivor (c : HypothesisColl K S) (offered : List (HypothesisBase K S))
    (h1 h2 : HypothesisBase K S) (hm1 : h1 ∈ offered) (hm2 : h2 ∈ offered)
    (hk : h1.key = h2.key) :
    ∃ m, (c.AddAll offered).member h1.key = some m ∧
      h1.futureScore ≤ m.futureScore ∧ h2.futureScore ≤ m.futureScore := by
  obtain ⟨m1, hmem1, hle1⟩ := AddAll_member_ge offered c hm1
  obtain ⟨m2, hmem2, hle2⟩ := AddAll_member_ge offered c hm2
  rw [← hk, hmem1] at hmem2
  have : m1 = m2 := by simpa using hmem2
  exact ⟨m1, hmem1, hle1, this ▸ hle2⟩

/-- C3, at the scenario of the specification: A(K1, 5) and B(K1, 7) are both offered,
and afterwards the member for K1 is B, which scores at least as much as both. -/
theorem best_survivor_witness :
    (HypothesisColl.empty.AddAll [hypA, hypB, hypC]).member hypA.key = some hypB ∧
    ∃ m, (HypothesisColl.empty.AddAll [hypA, hypB, hypC]).member hypA.key = some m ∧
      hypA.futureScore ≤ m.futureScore ∧ hypB.futureScore ≤ m.futureScore :=
  ⟨by decide, best_survivor HypothesisColl.empty [hypA, hypB, hypC] hypA hypB
    (by decide) (by decide) (by decide)⟩

end Invariants

/-! ## The comparator and the sort -/

section SortLemmas

/-- The comparator of the bin is a strict weak ordering when scores are totally ordered. -/
theorem HypothesisFutureScoreOrderer_strictWeak {K S : Type} [LinearOrder S] :
    StrictWeakOrdering (HypothesisFutureScoreOrderer : HypothesisBase K S → _ → Bool) := by
  refine ⟨fun a => ?_, fun a b c hab hbc => ?_, fun a b c h1 h2 h3 h4 => ?_⟩
  · simp [HypothesisFutureScoreOrderer]
  · simp only [HypothesisFutureScoreOrderer, gt_iff_lt, decide_eq_true_eq] at *
    exact lt_trans hbc hab
  · simp only [HypothesisFutureScoreOrderer, gt_iff_lt, decide_eq_false_iff_not, not_lt] at *
    exact ⟨le_trans h1 h3, le_trans h4 h2⟩

/-- What the comparator says, in terms of scores. -/
theorem HypothesisFutureScoreOrderer_eq_false {K S : Type} [LinearOrder S]
    (a b : HypothesisBase K S) :
    HypothesisFutureScoreOrderer b a = false ↔ a.futureScore ≥ b.futureScore := by
  simp [HypothesisFutureScoreOrderer, HypothesisBase.GetFutureScore]

variable {α : Type} {comp : α → α → Bool}

theorem StrictWeakOrdering.asymm (h : StrictWeakOrdering comp) {a b : α}
    (hab : comp a b = true) : comp b a = false := by
  cases hba : comp b a with
  | false => rfl
  | true =>
    have := h.2.1 a b a hab hba
    rw [h.1 a] at this
    exact absurd this (by simp)

/-- "Does not go after" is transitive. -/
theorem StrictWeakOrdering.not_after_trans (h : StrictWeakOrdering comp) {a b c : α}
    (hba : comp b a = false) (hcb : comp c b = false) : comp c a = false := by
  cases hca : comp c a with
  | false => rfl
  | true =>
    cases hab : comp a b with
    | true =>
      have := h.2.1 c a b hca hab
      rw [hcb] at this
      exact absurd this (by simp)
    | false =>
      cases hbc : comp b c with
      | true =>
        have := h.2.1 b c a hbc hca
        rw [hba] at this
        exact absurd this (by simp)
      | false =>
        have := (h.2.2 a b c hab hba hbc hcb).2
        rw [hca] at this
        exact absurd this (by simp)

theorem ordered_insert_perm (comp : α → α → Bool) (a : α) (l : List α) :
    (ordered_insert comp a l).Perm (a :: l) := by
  induction l with
  | nil => exact List.Perm.refl _
  | cons b bs ih =>
    by_cases hab : comp a b = true
    · simp [ordered_insert, hab]
    · simp only [ordered_insert, hab, if_false]
      exact (List.Perm.cons b ih).trans (List.Perm.swap a b bs)

theorem insertion_sort_perm (comp : α → α → Bool) (l : List α) :
    (insertion_sort comp l).Perm l := by
  induction l with
  | nil => exact List.Perm.refl _
  | cons a as ih =>
    exact (ordered_insert_perm comp a _).trans (List.Perm.cons a ih)

theorem ordered_insert_sorted (h : StrictWeakOrdering comp) (a : α) (l : List α)
    (hl : l.Pairwise (fun x y => comp y x = false)) :
    (ordered_insert comp a l).Pairwise (fun x y => comp y x = false) := by
  induction l with
  | nil => simp [ordered_insert]
  | cons b bs ih =>
    obtain ⟨hb, hbs⟩ := List.pairwise_cons.1 hl
    by_cases hab : comp a b = true
    · simp only [ordered_insert, hab, if_true]
      refine List.pairwise_cons.2 ⟨fun y hy => ?_, hl⟩
      rcases List.mem_cons.1 hy with rfl | hy'
      · exact h.asymm hab
      · exact h.not_after_trans (h.asymm hab) (hb y hy')
    · simp only [ordered_insert, hab, if_false]
      refine List.pairwise_cons.2 ⟨fun y hy => ?_, ih hbs⟩
      rcases List.mem_cons.1 ((ordered_insert_perm comp a bs).mem_iff.1 hy) with rfl | hy'
      · simpa using hab
      · exact hb y hy'

theorem insertion_sort_sorted (h : StrictWeakOrdering comp) (l : List α) :
    (insertion_sort comp l).Pairwise (fun x y => comp y x = false) := by
  induction l with
  | nil => simp [insertion_sort]
  | cons a as ih => exact ordered_insert_sorted h a _ ih

/-- The contract of `std::partial_sort` can be met: `insertion_partial_sort` meets it. -/
theorem insertion_partial_sort_contract :
    PartialSortContract (insertion_partial_sort : (α → α → Bool) → Nat → List α → List α) := by
  intro comp h mid xs _
  have hs := insertion_sort_sorted h xs
  rw [← List.take_append_drop mid (insertion_sort comp xs)] at hs
  obtain ⟨h1, _, h3⟩ := List.pairwise_append.1 hs
  exact ⟨insertion_sort_perm comp xs, h1, h3⟩

end SortLemmas

/-! ## Sorting and pruning: what `SortAndPruneHypos` does -/

section PruneLemmas

variable {K S : Type}

/-- The pruning loop from index `i` walks the elements from position `i` on. -/
theorem pruneLoop_eq (nbest_size : Nat) (l : List (HypothesisBase K S)) (i : Nat) :
    pruneLoop nbest_size l i = pruneCalls nbest_size (l.drop i) := by
  generalize h : l.length - i = n
  induction n generalizing i with
  | zero =>
    have hle : l.length ≤ i := by omega
    rw [pruneLoop, dif_neg (by omega), List.drop_of_length_le hle]
    rfl
  | succ n ih =>
    have hi : i < l.length := by omega
    rw [pruneLoop, dif_pos hi, ih (i + 1) (by omega), List.drop_eq_getElem_cons hi]
    simp [pruneCalls]

theorem recycled_pruneCalls (nbest_size : Nat) (l : List (HypothesisBase K S)) :
    recycled (pruneCalls nbest_size l) = l := by
  induction l with
  | nil => rfl
  | cons h hs ih =>
    by_cases hn : nbest_size = 0
    · simpa [pruneCalls, hn, recycled] using ih
    · simp [pruneCalls, hn, recycled, ih]

theorem deleted_pruneCalls (nbest_size : Nat) (l : List (HypothesisBase K S)) :
    deleted (pruneCalls nbest_size l) = if nbest_size ≠ 0 then l else [] := by
  induction l with
  | nil => simp [pruneCalls, deleted]
  | cons h hs ih =>
    by_cases hn : nbest_size = 0
    · simpa [pruneCalls, hn, deleted] using ih
    · simpa [pruneCalls, hn, deleted] using ih

/-- With n-best tracking enabled the pruning walk is a sequence of pairs: the recycling
of a hypothesis, then the deletion of its arc list. -/
theorem pruneCalls_pairs {nbest_size : Nat} (hn : nbest_size ≠ 0)
    (l : List (HypothesisBase K S)) :
    pruneCalls nbest_size l = l.flatMap (fun h => [Call.Recycle h, Call.Delete h]) ∧
    (∀ i h, (pruneCalls nbest_size l)[i]? = some (Call.Recycle h) →
      (pruneCalls nbest_size l)[i + 1]? = some (Call.Delete h)) ∧
    (∀ i h, (pruneCalls nbest_size l)[i]? = some (Call.Delete h) →
      ∃ j, i = j + 1 ∧ (pruneCalls nbest_size l)[j]? = some (Call.Recycle h)) := by
  induction l with
  | nil => simp [pruneCalls]
  | cons x xs ih =>
    obtain ⟨ih1, ih2, ih3⟩ := ih
    have hx : pruneCalls nbest_size (x :: xs) =
        Call.Recycle x :: Call.Delete x :: pruneCalls nbest_size xs := by
      simp [pruneCalls, hn]
    rw [hx]
    refine ⟨by simp [ih1], fun i h hi => ?_, fun i h hi => ?_⟩
    · match i with
      | 0 =>
        have : x = h := by simpa using hi
        simp [this]
      | 1 => simp at hi
      | i + 2 => simpa using ih2 i h (by simpa using hi)
    · match i with
      | 0 => simp at hi
      | 1 =>
        have : x = h := by simpa using hi
        exact ⟨0, rfl, by simp [this]⟩
      | i + 2 =>
        obtain ⟨j, rfl, hj⟩ := ih3 i h (by simpa using hi)
        exact ⟨j + 2, rfl, by simpa using hj⟩

variable [LinearOrder S]

/-- `SortAndPruneHypos` with the loop written as a walk over the tail. -/
theorem SortAndPruneHypos_eq
    (partial_sort : (HypothesisBase K S → HypothesisBase K S → Bool) → Nat →
      List (HypothesisBase K S) → List (HypothesisBase K S))
    (mgr : ManagerBase) (l : List (HypothesisBase K S)) :
    SortAndPruneHypos partial_sort mgr l =
      if mgr.stack_size ≠ 0 ∧
          (partial_sort HypothesisFutureScoreOrderer
            (if mgr.stack_size = 0 ∨ l.length < mgr.stack_size then l.length
              else mgr.stack_size) l).length > mgr.stack_size then
        ((partial_sort HypothesisFutureScoreOrderer
            (if mgr.stack_size = 0 ∨ l.length < mgr.stack_size then l.length
              else mgr.stack_size) l).take mgr.stack_size,
          pruneCalls mgr.nbest_size
            ((partial_sort HypothesisFutureScoreOrderer
              (if mgr.stack_size = 0 ∨ l.length < mgr.stack_size then l.length
                else mgr.stack_size) l).drop mgr.stack_size))
      else
        (partial_sort HypothesisFutureScoreOrderer
          (if mgr.stack_size = 0 ∨ l.length < mgr.stack_size then l.length
            else mgr.stack_size) l, []) := by
  simp only [SortAndPruneHypos, pruneLoop_eq]

/-- With stack size 0 nothing is pruned, whatever the sort does. -/
theorem SortAndPruneHypos_calls_of_unbounded
    (partial_sort : (HypothesisBase K S → HypothesisBase K S → Bool) → Nat →
      List (HypothesisBase K S) → List (HypothesisBase K S))
    (mgr : ManagerBase) (l : List (HypothesisBase K S)) (h0 : mgr.stack_size = 0) :
    (SortAndPruneHypos partial_sort mgr l).2 = [] := by
  simp [SortAndPruneHypos_eq, h0]

/-- The calls of `SortAndPruneHypos` are those of a walk over the recycled hypotheses. -/
theorem SortAndPruneHypos_calls
    (partial_sort : (HypothesisBase K S → HypothesisBase K S → Bool) → Nat →
      List (HypothesisBase K S) → List (HypothesisBase K S))
    (mgr : ManagerBase) (l : List (HypothesisBase K S)) :
    (SortAndPruneHypos partial_sort mgr l).2 =
      pruneCalls mgr.nbest_size (recycled (SortAndPruneHypos partial_sort mgr l).2) := by
  rw [SortAndPruneHypos_eq]
  generalize partial_sort HypothesisFutureScoreOrderer _ l = s
  by_cases hprune : mgr.stack_size ≠ 0 ∧ s.length > mgr.stack_size
  · rw [if_pos hprune]
    simp only [recycled_pruneCalls]
  · rw [if_neg hprune]
    rfl

/-- The postcondition of `SortAndPruneHypos` under the contract of the sort: the result
and the recycled hypotheses together are the input; the result is in non-increasing
order of score and has `min(stack_size, n)` entries (all `n` when the stack size is 0);
nothing recycled scores more than anything kept. -/
theorem SortAndPruneHypos_spec
    (partial_sort : (HypothesisBase K S → HypothesisBase K S → Bool) → Nat →
      List (HypothesisBase K S) → List (HypothesisBase K S))
    (hps : PartialSortContract partial_sort)
    (mgr : ManagerBase) (l : List (HypothesisBase K S)) :
    ((SortAndPruneHypos partial_sort mgr l).1 ++
      recycled (SortAndPruneHypos partial_sort mgr l).2).Perm l ∧
    (SortAndPruneHypos partial_sort mgr l).1.Pairwise
      (fun a b => a.futureScore ≥ b.futureScore) ∧
    (∀ a ∈ (SortAndPruneHypos partial_sort mgr l).1,
      ∀ b ∈ recycled (SortAndPruneHypos partial_sort mgr l).2,
        a.futureScore ≥ b.futureScore) ∧
    (SortAndPruneHypos partial_sort mgr l).1.length =
      (if mgr.stack_size = 0 then l.length else min mgr.stack_size l.length) := by
  have hmid : (if mgr.stack_size = 0 ∨ l.length < mgr.stack_size then l.length
      else mgr.stack_size) ≤ l.length := by
    split
    · exact le_refl _
    · rename_i hn
      push_neg at hn
      exact hn.2
  obtain ⟨hperm, hsorted, hbound⟩ :=
    hps HypothesisFutureScoreOrderer HypothesisFutureScoreOrderer_strictWeak _ l hmid
  rw [SortAndPruneHypos_eq]
  generalize hmidv : (if mgr.stack_size = 0 ∨ l.length < mgr.stack_size then l.length
      else mgr.stack_size) = mid at hperm hsorted hbound hmid
  generalize partial_sort HypothesisFutureScoreOrderer mid l = s at hperm hsorted hbound
  have hlen : s.length = l.length := hperm.length_eq
  simp only [HypothesisFutureScoreOrderer_eq_false] at hsorted hbound
  by_cases hprune : mgr.stack_size ≠ 0 ∧ s.length > mgr.stack_size
  · have hm : mid = mgr.stack_size := by
      rw [← hmidv, if_neg]
      push_neg
      exact ⟨hprune.1, by omega⟩
    subst hm
    rw [if_pos hprune]
    simp only [recycled_pruneCalls, List.take_append_drop]
    refine ⟨hperm, hsorted, hbound, ?_⟩
    rw [if_neg hprune.1, List.length_take]
    omega
  · have hm : mid = s.length := by
      rw [← hmidv, hlen]
      by_cases h0 : mgr.stack_size = 0
      · simp [h0]
      · have : ¬ s.length > mgr.stack_size := fun h => hprune ⟨h0, h⟩
        by_cases hlt : l.length < mgr.stack_size
        · simp [hlt]
        · rw [if_neg (by push_neg; exact ⟨h0, by omega⟩)]
          omega
    rw [if_neg hprune]
    rw [hm, List.take_length] at hsorted
    refine ⟨by simpa [recycled] using hperm, hsorted, by simp [recycled], ?_⟩
    by_cases h0 : mgr.stack_size = 0
    · simp [h0, hlen]
    · have : ¬ s.length > mgr.stack_size := fun h => hprune ⟨h0, h⟩
      rw [if_neg h0]
      simp only [hlen] at this ⊢
      omega

end PruneLemmas

/-! ## `GetSortedAndPruneHypos` -/

section GetLemmas

variable {K S : Type} [LinearOrder S]

theorem GetSorted_of_none
    (partial_sort : (HypothesisBase K S → HypothesisBase K S → Bool) → Nat →
      List (HypothesisBase K S) → List (HypothesisBase K S))
    (mgr : ManagerBase) {c : HypothesisColl K S} (h : c.m_sortedHypos = none) :
    c.GetSortedAndPruneHypos partial_sort mgr =
      ⟨{ c with m_sortedHypos := some (SortAndPruneHypos partial_sort mgr c.m_coll).1 },
        (SortAndPruneHypos partial_sort mgr c.m_coll).1,
        (SortAndPruneHypos partial_sort mgr c.m_coll).2⟩ := by
  simp [HypothesisColl.GetSortedAndPruneHypos, h]

theorem GetSorted_of_some
    (partial_sort : (HypothesisBase K S → HypothesisBase K S → Bool) → Nat →
      List (HypothesisBase K S) → List (HypothesisBase K S))
    (mgr : ManagerBase) {c : HypothesisColl K S} {v : List (HypothesisBase K S)}
    (h : c.m_sortedHypos = some v) :
    c.GetSortedAndPruneHypos partial_sort mgr = ⟨c, v, []⟩ := by
  simp [HypothesisColl.GetSortedAndPruneHypos, h]

/-- After the call the cached vector is the vector returned. -/
theorem GetSorted_cached
    (partial_sort : (HypothesisBase K S → HypothesisBase K S → Bool) → Nat →
      List (HypothesisBase K S) → List (HypothesisBase K S))
    (mgr : ManagerBase) (c : HypothesisColl K S) :
    (c.GetSortedAndPruneHypos partial_sort mgr).coll.m_sortedHypos =
      some (c.GetSortedAndPruneHypos partial_sort mgr).hypos := by
  cases h : c.m_sortedHypos with
  | none => rw [GetSorted_of_none partial_sort mgr h]
  | some v => rw [GetSorted_of_some partial_sort mgr h]; exact h

/-- The calls of a building `GetSortedAndPruneHypos`, with the loop written as a walk
over the tail of the sorted vector. -/
theorem GetSorted_calls_of_none
    (partial_sort : (HypothesisBase K S → HypothesisBase K S → Bool) → Nat →
      List (HypothesisBase K S) → List (HypothesisBase K S))
    (mgr : ManagerBase) {c : HypothesisColl K S} (h : c.m_sortedHypos = none) :
    (c.GetSortedAndPruneHypos partial_sort mgr).calls =
      if mgr.stack_size ≠ 0 ∧
          (partial_sort HypothesisFutureScoreOrderer
            (if mgr.stack_size = 0 ∨ c.m_coll.length < mgr.stack_size then c.m_coll.length
              else mgr.stack_size) c.m_coll).length > mgr.stack_size then
        pruneCalls mgr.nbest_size
          ((partial_sort HypothesisFutureScoreOrderer
            (if mgr.stack_size = 0 ∨ c.m_coll.length < mgr.stack_size then c.m_coll.length
              else mgr.stack_size) c.m_coll).drop mgr.stack_size)
      else [] := by
  rw [GetSorted_of_none partial_sort mgr h, SortAndPruneHypos_eq]
  exact apply_ite Prod.snd _ _ _

end GetLemmas

/-! ## `GetSortedAndPruneHypos`: cutoff, effects, idempotence -/

section GetTheorems

variable {K S : Type} [LinearOrder S]

/-- C4: for a bin with `n` members and no cached vector, and a stack size `k > 0`,
`GetSortedAndPruneHypos` returns `min(k, n)` hypotheses, all members of the bin, in
non-increasing order of future score; the returned and the pruned (recycled) hypotheses
together are the members; every returned hypothesis scores at least as much as every
pruned one, and as every member that is not returned; and when `n ≤ k` (the boundary
`n = k` included) nothing is pruned. -/
theorem cutoff_correct
    (partial_sort : (HypothesisBase K S → HypothesisBase K S → Bool) → Nat →
      List (HypothesisBase K S) → List (HypothesisBase K S))
    (hps : PartialSortContract partial_sort)
    (mgr : ManagerBase) (c : HypothesisColl K S)
    (hk : 0 < mgr.stack_size) (hnone : c.m_sortedHypos = none) :
    (c.GetSortedAndPruneHypos partial_sort mgr).hypos.length =
      min mgr.stack_size c.m_coll.length ∧
    (∀ h ∈ (c.GetSortedAndPruneHypos partial_sort mgr).hypos, h ∈ c.m_coll) ∧
    (c.GetSortedAndPruneHypos partial_sort mgr).hypos.Pairwise
      (fun a b => a.futureScore ≥ b.futureScore) ∧
    ((c.GetSortedAndPruneHypos partial_sort mgr).hypos ++
      recycled (c.GetSortedAndPruneHypos partial_sort mgr).calls).Perm c.m_coll ∧
    (∀ a ∈ (c.GetSortedAndPruneHypos partial_sort mgr).hypos,
      ∀ b ∈ recycled (c.GetSortedAndPruneHypos partial_sort mgr).calls,
        a.futureScore ≥ b.futureScore) ∧
    (∀ b ∈ c.m_coll, b ∉ (c.GetSortedAndPruneHypos partial_sort mgr).hypos →
      ∀ a ∈ (c.GetSortedAndPruneHypos partial_sort mgr).hypos,
        a.futureScore ≥ b.futureScore) ∧
    (c.m_coll.length ≤ mgr.stack_size →
      (c.GetSortedAndPruneHypos partial_sort mgr).calls = []) := by
  obtain ⟨hperm, hsorted, hbound, hlen⟩ := SortAndPruneHypos_spec partial_sort hps mgr c.m_coll
  have hcalls := SortAndPruneHypos_calls partial_sort mgr c.m_coll
  rw [GetSorted_of_none partial_sort mgr hnone]
  simp only
  generalize SortAndPruneHypos partial_sort mgr c.m_coll = r at hperm hsorted hbound hlen hcalls
  refine ⟨?_, fun h hh => ?_, hsorted, hperm, hbound, fun b hb hnb a ha => ?_, fun hle => ?_⟩
  · rw [hlen, if_neg (by omega)]
  · exact hperm.mem_iff.1 (List.mem_append_left _ hh)
  · rcases List.mem_append.1 (hperm.mem_iff.2 hb) with h1 | h2
    · exact absurd h1 hnb
    · exact hbound a ha b h2
  · have h1 : (r.1 ++ recycled r.2).length = c.m_coll.length := hperm.length_eq
    rw [List.length_append, hlen, if_neg (by omega), min_eq_right hle] at h1
    have h2 : recycled r.2 = [] := List.length_eq_zero.1 (by omega)
    rw [hcalls, h2]
    rfl

/-- C4, at the scenario of the specification: the members B(7), C(3), D(1) with stack
size 2 give `[B, C]`, with D pruned. -/
theorem cutoff_correct_witness :
    (HypothesisColl.empty.AddAll [hypA, hypB, hypC, hypD]).m_coll = [hypB, hypC, hypD] ∧
    ((HypothesisColl.empty.AddAll [hypA, hypB, hypC, hypD]).GetSortedAndPruneHypos
      insertion_partial_sort ⟨2, 0⟩).hypos = [hypB, hypC] ∧
    recycled ((HypothesisColl.empty.AddAll [hypA, hypB, hypC, hypD]).GetSortedAndPruneHypos
      insertion_partial_sort ⟨2, 0⟩).calls = [hypD] ∧
    ((HypothesisColl.empty.AddAll [hypA, hypB, hypC, hypD]).GetSortedAndPruneHypos
      insertion_partial_sort ⟨2, 0⟩).hypos.length =
        min 2 (HypothesisColl.empty.AddAll [hypA, hypB, hypC, hypD]).m_coll.length ∧
    ((HypothesisColl.empty.AddAll [hypA, hypB, hypC, hypD]).GetSortedAndPruneHypos
      insertion_partial_sort ⟨2, 0⟩).hypos.Pairwise
        (fun a b => a.futureScore ≥ b.futureScore) :=
  ⟨by decide, by decide,
    by rw [GetSorted_calls_of_none insertion_partial_sort ⟨2, 0⟩ (by decide)]; decide,
    (cutoff_correct insertion_partial_sort insertion_partial_sort_contract ⟨2, 0⟩
      (HypothesisColl.empty.AddAll [hypA, hypB, hypC, hypD]) (by decide) (by decide)).1,
    (cutoff_correct insertion_partial_sort insertion_partial_sort_contract ⟨2, 0⟩
      (HypothesisColl.empty.AddAll [hypA, hypB, hypC, hypD]) (by decide) (by decide)).2.2.1⟩

/-- C8: for a bin with `n` members, no cached vector and a stack size `k` with
`0 < k < n`, `GetSortedAndPruneHypos` returns `k` hypotheses and hands `n - k` to the
Recycler; returned and recycled hypotheses together are a permutation of the members,
so that (the members being distinct objects) the recycled ones are exactly the members
that are not returned, each once; with n-best tracking enabled the arc-list deletes are
made for exactly the recycled hypotheses, and with it disabled no delete is made. -/
theorem prune_effects
    (partial_sort : (HypothesisBase K S → HypothesisBase K S → Bool) → Nat →
      List (HypothesisBase K S) → List (HypothesisBase K S))
    (hps : PartialSortContract partial_sort)
    (mgr : ManagerBase) (c : HypothesisColl K S)
    (hnone : c.m_sortedHypos = none)
    (hk : 0 < mgr.stack_size) (hkn : mgr.stack_size < c.m_coll.length) :
    (c.GetSortedAndPruneHypos partial_sort mgr).hypos.length = mgr.stack_size ∧
    (recycled (c.GetSortedAndPruneHypos partial_sort mgr).calls).length =
      c.m_coll.length - mgr.stack_size ∧
    ((c.GetSortedAndPruneHypos partial_sort mgr).hypos ++
      recycled (c.GetSortedAndPruneHypos partial_sort mgr).calls).Perm c.m_coll ∧
    (c.m_coll.Nodup →
      (recycled (c.GetSortedAndPruneHypos partial_sort mgr).calls).Nodup ∧
      ∀ h, h ∈ recycled (c.GetSortedAndPruneHypos partial_sort mgr).calls ↔
        (h ∈ c.m_coll ∧ h ∉ (c.GetSortedAndPruneHypos partial_sort mgr).hypos)) ∧
    (mgr.nbest_size ≠ 0 →
      deleted (c.GetSortedAndPruneHypos partial_sort mgr).calls =
        recycled (c.GetSortedAndPruneHypos partial_sort mgr).calls) ∧
    (mgr.nbest_size = 0 →
      deleted (c.GetSortedAndPruneHypos partial_sort mgr).calls = []) := by
  obtain ⟨hperm, _, _, hlen⟩ := SortAndPruneHypos_spec partial_sort hps mgr c.m_coll
  have hcalls := SortAndPruneHypos_calls partial_sort mgr c.m_coll
  rw [GetSorted_of_none partial_sort mgr hnone]
  simp only
  generalize SortAndPruneHypos partial_sort mgr c.m_coll = r at hperm hlen hcalls
  rw [if_neg (by omega), min_eq_left (le_of_lt hkn)] at hlen
  have hl : (r.1 ++ recycled r.2).length = c.m_coll.length := hperm.length_eq
  rw [List.length_append, hlen] at hl
  refine ⟨hlen, by omega, hperm, fun hnd => ?_, fun hn => ?_, fun hn => ?_⟩
  · have hnd' : (r.1 ++ recycled r.2).Nodup := hperm.nodup_iff.2 hnd
    obtain ⟨_, h2, hdisj⟩ := List.nodup_append.1 hnd'
    refine ⟨h2, fun h => ⟨fun hr => ⟨hperm.mem_iff.1 (List.mem_append_right _ hr),
      fun hh => hdisj hh hr⟩, fun ⟨hm, hnh⟩ => ?_⟩⟩
    rcases List.mem_append.1 (hperm.mem_iff.2 hm) with h1 | h1
    · exact absurd h1 hnh
    · exact h1
  · rw [hcalls, deleted_pruneCalls, if_pos hn, recycled_pruneCalls]
  · rw [hcalls, deleted_pruneCalls, if_neg (by simpa using hn)]

/-- C8, at the scenario of the specification: from the members B, C, D with stack size 2
and n-best tracking enabled, `[B, C]` is returned and D is recycled and deleted from the
arc lists; with n-best tracking disabled no delete is made. -/
theorem prune_effects_witness :
    ((HypothesisColl.empty.AddAll [hypA, hypB, hypC, hypD]).GetSortedAndPruneHypos
      insertion_partial_sort ⟨2, 1⟩).hypos = [hypB, hypC] ∧
    recycled ((HypothesisColl.empty.AddAll [hypA, hypB, hypC, hypD]).GetSortedAndPruneHypos
      insertion_partial_sort ⟨2, 1⟩).calls = [hypD] ∧
    deleted ((HypothesisColl.empty.AddAll [hypA, hypB, hypC, hypD]).GetSortedAndPruneHypos
      insertion_partial_sort ⟨2, 1⟩).calls = [hypD] ∧
    deleted ((HypothesisColl.empty.AddAll [hypA, hypB, hypC, hypD]).GetSortedAndPruneHypos
      insertion_partial_sort ⟨2, 0⟩).calls = [] ∧
    (((HypothesisColl.empty.AddAll [hypA, hypB, hypC, hypD]).GetSortedAndPruneHypos
      insertion_partial_sort ⟨2, 1⟩).hypos ++
      recycled ((HypothesisColl.empty.AddAll [hypA, hypB, hypC, hypD]).GetSortedAndPruneHypos
        insertion_partial_sort ⟨2, 1⟩).calls).Perm
      (HypothesisColl.empty.AddAll [hypA, hypB, hypC, hypD]).m_coll :=
  ⟨by decide,
    by rw [GetSorted_calls_of_none insertion_partial_sort ⟨2, 1⟩ (by decide)]; decide,
    by rw [GetSorted_calls_of_none insertion_partial_sort ⟨2, 1⟩ (by decide)]; decide,
    by rw [GetSorted_calls_of_none insertion_partial_sort ⟨2, 0⟩ (by decide)]; decide,
    (prune_effects insertion_partial_sort insertion_partial_sort_contract ⟨2, 1⟩
      (HypothesisColl.empty.AddAll [hypA, hypB, hypC, hypD])
      (by decide) (by decide) (by decide)).2.2.1⟩

/-- C10: for every bin state and every configuration, a second `GetSortedAndPruneHypos`
call right after a first one returns the same vector (same hypotheses, same order),
makes no Recycler and no arc-list call, and leaves the bin as the first call left it. -/
theorem GetSorted_idempotent
    (partial_sort : (HypothesisBase K S → HypothesisBase K S → Bool) → Nat →
      List (HypothesisBase K S) → List (HypothesisBase K S))
    (mgr mgr2 : ManagerBase) (c : HypothesisColl K S) :
    ((c.GetSortedAndPruneHypos partial_sort mgr).coll.GetSortedAndPruneHypos
        partial_sort mgr2).hypos = (c.GetSortedAndPruneHypos partial_sort mgr).hypos ∧
    ((c.GetSortedAndPruneHypos partial_sort mgr).coll.GetSortedAndPruneHypos
        partial_sort mgr2).calls = [] ∧
    ((c.GetSortedAndPruneHypos partial_sort mgr).coll.GetSortedAndPruneHypos
        partial_sort mgr2).coll = (c.GetSortedAndPruneHypos partial_sort mgr).coll := by
  rw [GetSorted_of_some partial_sort mgr2 (GetSorted_cached partial_sort mgr c)]
  exact ⟨rfl, rfl, rfl⟩

/-- C7 (as amended): with n-best tracking enabled, the calls `SortAndPruneHypos` makes
are, for each pruned hypothesis in turn, its `Recycle` call and then, as the very next
call, the arc-list `Delete` for the same hypothesis: every `Recycle(h)` is immediately
followed by `Delete(h)`, and every `Delete(h)` is immediately preceded by `Recycle(h)`. -/
theorem arc_delete_follows_recycle
    (partial_sort : (HypothesisBase K S → HypothesisBase K S → Bool) → Nat →
      List (HypothesisBase K S) → List (HypothesisBase K S))
    (mgr : ManagerBase) (l : List (HypothesisBase K S)) (hn : mgr.nbest_size ≠ 0) :
    (SortAndPruneHypos partial_sort mgr l).2 =
      (recycled (SortAndPruneHypos partial_sort mgr l).2).flatMap
        (fun h => [Call.Recycle h, Call.Delete h]) ∧
    (∀ i h, (SortAndPruneHypos partial_sort mgr l).2[i]? = some (Call.Recycle h) →
      (SortAndPruneHypos partial_sort mgr l).2[i + 1]? = some (Call.Delete h)) ∧
    (∀ i h, (SortAndPruneHypos partial_sort mgr l).2[i]? = some (Call.Delete h) →
      ∃ j, i = j + 1 ∧ (SortAndPruneHypos partial_sort mgr l).2[j]? = some (Call.Recycle h)) := by
  have hcalls := SortAndPruneHypos_calls partial_sort mgr l
  obtain ⟨h1, h2, h3⟩ :=
    pruneCalls_pairs hn (recycled (SortAndPruneHypos partial_sort mgr l).2)
  rw [← hcalls] at h1 h2 h3
  exact ⟨h1, h2, h3⟩

/-- C7 (as amended), at the scenario of the specification: pruning B, C, D to stack size
2 with n-best tracking enabled makes the calls `Recycle(D)`, `Delete(D)`, in this order. -/
theorem arc_delete_follows_recycle_witness :
    (SortAndPruneHypos insertion_partial_sort ⟨2, 1⟩ [hypB, hypC, hypD]).2 =
      [Call.Recycle hypD, Call.Delete hypD] ∧
    (SortAndPruneHypos insertion_partial_sort ⟨2, 1⟩ [hypB, hypC, hypD]).2 =
      (recycled (SortAndPruneHypos insertion_partial_sort ⟨2, 1⟩ [hypB, hypC, hypD]).2).flatMap
        (fun h => [Call.Recycle h, Call.Delete h]) :=
  ⟨by rw [SortAndPruneHypos_eq]; decide,
    (arc_delete_follows_recycle insertion_partial_sort ⟨2, 1⟩ [hypB, hypC, hypD]
      (by decide)).1⟩

/-- C7, as stated, fails: in the scenario of the specification with stack size 2 and
n-best tracking enabled, D is handed to the Recycler first and its arc list is deleted
afterwards, so `Recycle(D)` precedes `Delete(D)` in the sequence of calls. -/
theorem recycle_precedes_arc_delete :
    (binBCD.GetSortedAndPruneHypos insertion_partial_sort ⟨2, 1⟩).calls =
      [Call.Recycle hypD, Call.Delete hypD] ∧
    (binBCD.GetSortedAndPruneHypos insertion_partial_sort ⟨2, 1⟩).calls.indexOf
        (Call.Recycle hypD) <
      (binBCD.GetSortedAndPruneHypos insertion_partial_sort ⟨2, 1⟩).calls.indexOf
        (Call.Delete hypD) := by
  rw [GetSorted_calls_of_none insertion_partial_sort ⟨2, 1⟩ (by decide)]
  decide

/-- C5 (as amended): an `Add` after the sorted vector has been built does not invalidate
it, whether or not the `Add` changes the membership: the cached vector stays in place,
and the next `GetSortedAndPruneHypos` returns the vector built earlier, with no
Recycler or arc-list call. -/
theorem Add_keeps_cached_view [DecidableEq K]
    (partial_sort : (HypothesisBase K S → HypothesisBase K S → Bool) → Nat →
      List (HypothesisBase K S) → List (HypothesisBase K S))
    (mgr mgr2 : ManagerBase) (c : HypothesisColl K S) (hypo : HypothesisBase K S) :
    ((c.GetSortedAndPruneHypos partial_sort mgr).coll.Add hypo).1.m_sortedHypos =
      some (c.GetSortedAndPruneHypos partial_sort mgr).hypos ∧
    (((c.GetSortedAndPruneHypos partial_sort mgr).coll.Add hypo).1.GetSortedAndPruneHypos
      partial_sort mgr2).hypos = (c.GetSortedAndPruneHypos partial_sort mgr).hypos ∧
    (((c.GetSortedAndPruneHypos partial_sort mgr).coll.Add hypo).1.GetSortedAndPruneHypos
      partial_sort mgr2).calls = [] := by
  have h : ((c.GetSortedAndPruneHypos partial_sort mgr).coll.Add hypo).1.m_sortedHypos =
      some (c.GetSortedAndPruneHypos partial_sort mgr).hypos := by
    rw [Add_m_sortedHypos, GetSorted_cached]
  rw [GetSorted_of_some partial_sort mgr2 h]
  exact ⟨h, rfl, rfl⟩

/-- C5, as stated, fails: with A in the bin and the vector `[A]` built (unbounded stack
size), offering C under a new key is kept and changes the membership to A, C; the next
`GetSortedAndPruneHypos` still returns `[A]`, without C, where a rebuild from the
current membership would return `[A, C]`. -/
theorem Add_after_build_stale :
    binAfterBuild.m_sortedHypos = some [hypA] ∧
    (binAfterBuild.Add hypC).2 = ⟨true, none⟩ ∧
    (binAfterBuild.Add hypC).1.m_coll = [hypA, hypC] ∧
    ((binAfterBuild.Add hypC).1.GetSortedAndPruneHypos insertion_partial_sort ⟨0, 0⟩).hypos =
      [hypA] ∧
    hypC ∉ ((binAfterBuild.Add hypC).1.GetSortedAndPruneHypos
      insertion_partial_sort ⟨0, 0⟩).hypos ∧
    (HypothesisColl.GetSortedAndPruneHypos insertion_partial_sort ⟨0, 0⟩
      ⟨(binAfterBuild.Add hypC).1.m_coll, none⟩).hypos = [hypA, hypC] := by
  decide

/-- C9 (as amended): with stack size 0, for every bin and whether n-best tracking is
enabled or not, `GetSortedAndPruneHypos` makes no Recycler and no arc-list call; when
the bin has no cached vector it returns a permutation of all the members in
non-increasing order of future score, and when it has one it returns that vector. -/
theorem unbounded_pass_through
    (partial_sort : (HypothesisBase K S → HypothesisBase K S → Bool) → Nat →
      List (HypothesisBase K S) → List (HypothesisBase K S))
    (hps : PartialSortContract partial_sort)
    (mgr : ManagerBase) (c : HypothesisColl K S) (h0 : mgr.stack_size = 0) :
    (c.GetSortedAndPruneHypos partial_sort mgr).calls = [] ∧
    (c.m_sortedHypos = none →
      (c.GetSortedAndPruneHypos partial_sort mgr).hypos.Perm c.m_coll ∧
      (c.GetSortedAndPruneHypos partial_sort mgr).hypos.Pairwise
        (fun a b => a.futureScore ≥ b.futureScore)) ∧
    (∀ v, c.m_sortedHypos = some v →
      (c.GetSortedAndPruneHypos partial_sort mgr).hypos = v) := by
  refine ⟨?_, fun hnone => ?_, fun v hv => ?_⟩
  · cases h : c.m_sortedHypos with
    | none =>
      rw [GetSorted_of_none partial_sort mgr h]
      exact SortAndPruneHypos_calls_of_unbounded partial_sort mgr c.m_coll h0
    | some v => rw [GetSorted_of_some partial_sort mgr h]
  · obtain ⟨hperm, hsorted, _, _⟩ := SortAndPruneHypos_spec partial_sort hps mgr c.m_coll
    rw [SortAndPruneHypos_calls_of_unbounded partial_sort mgr c.m_coll h0] at hperm
    rw [GetSorted_of_none partial_sort mgr hnone]
    exact ⟨by simpa [recycled] using hperm, hsorted⟩
  · rw [GetSorted_of_some partial_sort mgr hv]

/-- C9 (as amended), at the scenario of the specification: with stack size 0 and n-best
tracking enabled, the members B, C, D come back as `[B, C, D]` and no call is made. -/
theorem unbounded_pass_through_witness :
    (binBCD.GetSortedAndPruneHypos insertion_partial_sort ⟨0, 1⟩).hypos =
      [hypB, hypC, hypD] ∧
    (binBCD.GetSortedAndPruneHypos insertion_partial_sort ⟨0, 1⟩).calls = [] :=
  ⟨by decide,
    (unbounded_pass_through insertion_partial_sort insertion_partial_sort_contract ⟨0, 1⟩
      binBCD rfl).1⟩

/-- C9, as stated, fails on a bin that holds a cached vector: with stack size 0
throughout, after A is offered and the vector `[A]` is built, offering B replaces A in
the container; `GetSortedAndPruneHypos` then returns `[A]`, which is not a permutation
of the members `[B]`. -/
theorem unbounded_stale_view :
    (binAfterBuild.Add hypB).2 = ⟨true, some hypA⟩ ∧
    (binAfterBuild.Add hypB).1.m_coll = [hypB] ∧
    ((binAfterBuild.Add hypB).1.GetSortedAndPruneHypos insertion_partial_sort ⟨0, 0⟩).hypos =
      [hypA] ∧
    ¬ ((binAfterBuild.Add hypB).1.GetSortedAndPruneHypos
        insertion_partial_sort ⟨0, 0⟩).hypos.Perm (binAfterBuild.Add hypB).1.m_coll := by
  refine ⟨by decide, by decide, by decide, fun h => ?_⟩
  have hm := h.mem_iff (a := hypA)
  revert hm
  decide

end GetTheorems

/-! ## `Clear`, the frame of `Add`, and the container under `GetSortedAndPruneHypos` -/

section FrameLemmas

variable {K S : Type}

/-- The in-place overwrite of the slot found for `hypo`'s key leaves the elements
stored under the other keys as they were. -/
theorem filter_other_keys_set [DecidableEq K] {l : List (HypothesisBase K S)} {hypo : HypothesisBase K S}
    {it : Iterator K S} (h : _HCType.find hypo.key l = some it) :
    (l.set it.pos hypo).filter (fun e => decide (e.key ≠ hypo.key)) =
      l.filter (fun e => decide (e.key ≠ hypo.key)) := by
  induction l generalizing it with
  | nil => simp [_HCType.find] at h
  | cons e es ih =>
    by_cases hk : e.key = hypo.key
    · simp [_HCType.find, hk] at h
      subst h
      simp [hk]
    · simp only [_HCType.find, hk, if_false, Option.map_eq_some'] at h
      obtain ⟨it', h', rfl⟩ := h
      have := @ih it' h'
      simp only [List.set_cons_succ, List.filter_cons, this]

variable [LinearOrder S]

/-- Under the contract of the sort, sorting and pruning the empty vector gives the empty
vector and makes no call. -/
theorem SortAndPruneHypos_nil
    (partial_sort : (HypothesisBase K S → HypothesisBase K S → Bool) → Nat →
      List (HypothesisBase K S) → List (HypothesisBase K S))
    (hps : PartialSortContract partial_sort) (mgr : ManagerBase) :
    SortAndPruneHypos partial_sort mgr ([] : List (HypothesisBase K S)) = ([], []) := by
  obtain ⟨hperm, _, _, _⟩ := SortAndPruneHypos_spec partial_sort hps mgr []
  have hcalls := SortAndPruneHypos_calls partial_sort mgr ([] : List (HypothesisBase K S))
  generalize SortAndPruneHypos partial_sort mgr ([] : List (HypothesisBase K S)) = r
    at hperm hcalls
  have hnil : r.1 ++ recycled r.2 = [] := List.Perm.eq_nil hperm
  obtain ⟨h1, h2⟩ := List.append_eq_nil.1 hnil
  rw [h2] at hcalls
  exact Prod.ext h1 (by rw [hcalls]; rfl)

/-- `GetSortedAndPruneHypos` never writes to the container. -/
theorem GetSorted_m_coll
    (partial_sort : (HypothesisBase K S → HypothesisBase K S → Bool) → Nat →
      List (HypothesisBase K S) → List (HypothesisBase K S))
    (mgr : ManagerBase) (c : HypothesisColl K S) :
    (c.GetSortedAndPruneHypos partial_sort mgr).coll.m_coll = c.m_coll := by
  cases h : c.m_sortedHypos with
  | none => rw [GetSorted_of_none partial_sort mgr h]
  | some v => rw [GetSorted_of_some partial_sort mgr h]

end FrameLemmas

section FrameTheorems

variable {K S : Type} [LinearOrder S]

/-- C11: for every bin state, with or without a cached vector, after `Clear` the bin
has no member and no cached vector, and a following `GetSortedAndPruneHypos` returns
the empty vector for every stack size and makes no Recycler and no arc-list call.
(`Clear` itself consists of two assignments and calls no collaborator.) -/
theorem reset_correct
    (partial_sort : (HypothesisBase K S → HypothesisBase K S → Bool) → Nat →
      List (HypothesisBase K S) → List (HypothesisBase K S))
    (hps : PartialSortContract partial_sort) (mgr : ManagerBase) (c : HypothesisColl K S) :
    c.Clear.m_coll = [] ∧ c.Clear.m_sortedHypos = none ∧
    (c.Clear.GetSortedAndPruneHypos partial_sort mgr).hypos = [] ∧
    (c.Clear.GetSortedAndPruneHypos partial_sort mgr).calls = [] := by
  have hnone : c.Clear.m_sortedHypos = none := rfl
  have hcoll : c.Clear.m_coll = [] := rfl
  rw [GetSorted_of_none partial_sort mgr hnone, hcoll,
    SortAndPruneHypos_nil partial_sort hps mgr]
  exact ⟨rfl, rfl, rfl, rfl⟩

/-- C11, at the scenario of the specification: the bin holding B, C, D and the cached
vector `[B, C]` is cleared; it then has no member and no cached vector, and the next
`GetSortedAndPruneHypos` returns the empty vector and makes no call. -/
theorem reset_correct_witness :
    (binBCD.GetSortedAndPruneHypos insertion_partial_sort ⟨2, 1⟩).coll.m_sortedHypos =
      some [hypB, hypC] ∧
    (binBCD.GetSortedAndPruneHypos insertion_partial_sort ⟨2, 1⟩).coll.Clear.m_coll = [] ∧
    (binBCD.GetSortedAndPruneHypos insertion_partial_sort ⟨2, 1⟩).coll.Clear.m_sortedHypos =
      none ∧
    ((binBCD.GetSortedAndPruneHypos insertion_partial_sort ⟨2, 1⟩).coll.Clear.GetSortedAndPruneHypos
      insertion_partial_sort ⟨2, 1⟩).hypos = [] ∧
    ((binBCD.GetSortedAndPruneHypos insertion_partial_sort ⟨2, 1⟩).coll.Clear.GetSortedAndPruneHypos
      insertion_partial_sort ⟨2, 1⟩).calls = [] :=
  ⟨by decide,
    reset_correct insertion_partial_sort insertion_partial_sort_contract ⟨2, 1⟩
      (binBCD.GetSortedAndPruneHypos insertion_partial_sort ⟨2, 1⟩).coll⟩

/-- C13: when no member has the candidate's key, `Add` returns `(true, none)`, the
candidate becomes the member for its key and the number of members grows by one. In
every case the member found under any other key, and the list of elements stored under
the other keys, are unchanged; and when the key was present the number of members is
unchanged. -/
theorem Add_new_key_and_frame [DecidableEq K] (c : HypothesisColl K S) (hypo : HypothesisBase K S) :
    ((∀ e ∈ c.m_coll, e.key ≠ hypo.key) →
      (c.Add hypo).2 = ⟨true, none⟩ ∧ (c.Add hypo).1.member hypo.key = some hypo ∧
      (c.Add hypo).1.m_coll.length = c.m_coll.length + 1) ∧
    (∀ k, k ≠ hypo.key → (c.Add hypo).1.member k = c.member k) ∧
    ((c.Add hypo).1.m_coll.filter (fun e => decide (e.key ≠ hypo.key)) =
      c.m_coll.filter (fun e => decide (e.key ≠ hypo.key))) ∧
    ((∃ e ∈ c.m_coll, e.key = hypo.key) →
      (c.Add hypo).1.m_coll.length = c.m_coll.length) := by
  refine ⟨fun hnew => ?_, fun k hk => ?_, ?_, fun hex => ?_⟩
  · have hf := (find_eq_none_iff hypo.key c.m_coll).2 hnew
    rw [Add_of_absent hf]
    refine ⟨rfl, ?_, by simp⟩
    simp [HypothesisColl.member, find_append hf]
  · cases hadd : (c.Add hypo).2.added with
    | true => rw [member_Add_of_added hadd k, if_neg hk]
    | false => rw [(Add_of_not_added hadd).1]
  · rcases Add_cases c hypo with ⟨_, he⟩ | ⟨it, hf, _, he⟩ | ⟨it, _, _, he⟩
    · rw [he]
      simp
    · rw [he]
      exact filter_other_keys_set hf
    · rw [he]
  · rcases Add_cases c hypo with ⟨hf, _⟩ | ⟨it, _, _, he⟩ | ⟨it, _, _, he⟩
    · obtain ⟨e, he, hk⟩ := hex
      exact absurd hk ((find_eq_none_iff hypo.key c.m_coll).1 hf e he)
    · rw [he]
      simp
    · rw [he]

/-- C13, at the scenario of the specification: with B (key K1) in the bin, offering C
(key K2) returns `(true, none)`, makes C the member for K2, leaves B the member for K1
and brings the number of members from 1 to 2. -/
theorem Add_new_key_and_frame_witness :
    ((HypothesisColl.empty.AddAll [hypA, hypB]).Add hypC).2 = ⟨true, none⟩ ∧
    ((HypothesisColl.empty.AddAll [hypA, hypB]).Add hypC).1.m_coll = [hypB, hypC] ∧
    ((∀ e ∈ (HypothesisColl.empty.AddAll [hypA, hypB]).m_coll, e.key ≠ hypC.key) →
      ((HypothesisColl.empty.AddAll [hypA, hypB]).Add hypC).2 = ⟨true, none⟩ ∧
      ((HypothesisColl.empty.AddAll [hypA, hypB]).Add hypC).1.member hypC.key = some hypC ∧
      ((HypothesisColl.empty.AddAll [hypA, hypB]).Add hypC).1.m_coll.length =
        (HypothesisColl.empty.AddAll [hypA, hypB]).m_coll.length + 1) :=
  ⟨by decide, by decide,
    (Add_new_key_and_frame (HypothesisColl.empty.AddAll [hypA, hypB]) hypC).1⟩

/-- C14: for every bin state and every candidate, the statement-by-statement execution
of the body of `Add` ends in one of the three `return` statements (source line 30, 41
or 45), with the value and the bin that `Add` gives: it does not fail at the
dereference of the iterator or at the assignment through it, and it does not come to
the `assert(false)` after the `if`/`else`. -/
theorem Add_total [DecidableEq K] (c : HypothesisColl K S) (hypo : HypothesisBase K S) :
    (∃ line frame, line ∈ [30, 41, 45] ∧
      c.AddRun hypo = Exit.returned line frame (c.Add hypo).2 ∧
      frame.m_coll = (c.Add hypo).1.m_coll ∧
      frame.m_sortedHypos = (c.Add hypo).1.m_sortedHypos) ∧
    (∀ why, c.AddRun hypo ≠ Exit.failed why) ∧
    (∀ frame, c.AddRun hypo ≠ Exit.fellThrough frame) := by
  have h : ∃ line frame, line ∈ [30, 41, 45] ∧
      c.AddRun hypo = Exit.returned line frame (c.Add hypo).2 ∧
      frame.m_coll = (c.Add hypo).1.m_coll ∧
      frame.m_sortedHypos = (c.Add hypo).1.m_sortedHypos := by
    rcases Add_cases c hypo with ⟨hf, he⟩ | ⟨it, hf, hs, he⟩ | ⟨it, hf, hs, he⟩
    · refine ⟨30, ⟨c.m_coll ++ [hypo], c.m_sortedHypos, hypo, some (c.m_coll.length, true),
        none⟩, by simp, ?_, ?_, ?_⟩
      · rw [he]
        simp [HypothesisColl.AddRun, AddBody, Stmt.run, AddFrame.line25, AddFrame.cond28,
          _HCType.insert, hf]
      · rw [he]
      · rw [he]
    · have hget := find_some_get hf
      have hlt : it.pos < c.m_coll.length := by
        by_contra hge
        rw [List.getElem?_eq_none (by omega)] at hget
        exact absurd hget (by simp)
      refine ⟨41, ⟨c.m_coll.set it.pos hypo, c.m_sortedHypos, hypo, some (it.pos, false),
        some it.deref⟩, by simp, ?_, ?_, ?_⟩
      · rw [he]
        simp [HypothesisColl.AddRun, AddBody, Stmt.run, AddFrame.line25, AddFrame.cond28,
          AddFrame.line33, AddFrame.cond34, AddFrame.line39, _HCType.insert, hf, hget, hlt,
          HypothesisBase.GetFutureScore, hs]
      · rw [he]
      · rw [he]
    · have hget := find_some_get hf
      refine ⟨45, ⟨c.m_coll, c.m_sortedHypos, hypo, some (it.pos, false), some it.deref⟩,
        by simp, ?_, ?_, ?_⟩
      · rw [he]
        simp [HypothesisColl.AddRun, AddBody, Stmt.run, AddFrame.line25, AddFrame.cond28,
          AddFrame.line33, AddFrame.cond34, _HCType.insert, hf, hget,
          HypothesisBase.GetFutureScore, hs]
      · rw [he]
      · rw [he]
  obtain ⟨line, frame, hl, hrun, hm, hv⟩ := h
  refine ⟨⟨line, frame, hl, hrun, hm, hv⟩, fun why hw => ?_, fun fr hfr => ?_⟩
  · rw [hrun] at hw
    exact Exit.noConfusion hw
  · rw [hrun] at hfr
    exact Exit.noConfusion hfr

/-- C14, at the scenario of the specification: offering A to the empty bin returns at
line 30; offering B to the bin holding A returns at line 41, with B in A's slot;
offering E to the bin holding B returns at line 45. The same execution of a body whose
branches do not return comes to `assert(false)` and fails. -/
theorem Add_total_witness :
    HypothesisColl.empty.AddRun hypA =
      Exit.returned 30 ⟨[hypA], none, hypA, some (0, true), none⟩ ⟨true, none⟩ ∧
    (HypothesisColl.empty.AddAll [hypA]).AddRun hypB =
      Exit.returned 41 ⟨[hypB], none, hypB, some (0, false), some hypA⟩ ⟨true, some hypA⟩ ∧
    (HypothesisColl.empty.AddAll [hypA, hypB]).AddRun hypE =
      Exit.returned 45 ⟨[hypB], none, hypE, some (0, false), some hypB⟩ ⟨false, some hypB⟩ ∧
    bodyWithoutReturn.run ⟨[hypB], none, hypE, none, none⟩ = Exit.failed "assert(false)" ∧
    (∀ why, (HypothesisColl.empty.AddAll [hypA, hypB]).AddRun hypE ≠ Exit.failed why) :=
  ⟨by decide, by decide, by decide, by decide,
    (Add_total (HypothesisColl.empty.AddAll [hypA, hypB]) hypE).2.1⟩

/-- C16: for every bin state and every stack size, the container after
`GetSortedAndPruneHypos` is the container before it; in particular, after pruning with
`0 < k < n` the container still holds all `n` members, among them the `n - k`
hypotheses that were handed to the Recycler. -/
theorem GetSorted_container_untouched
    (partial_sort : (HypothesisBase K S → HypothesisBase K S → Bool) → Nat →
      List (HypothesisBase K S) → List (HypothesisBase K S))
    (mgr : ManagerBase) (c : HypothesisColl K S) :
    (c.GetSortedAndPruneHypos partial_sort mgr).coll.m_coll = c.m_coll ∧
    (PartialSortContract partial_sort → c.m_sortedHypos = none →
      0 < mgr.stack_size → mgr.stack_size < c.m_coll.length →
      (c.GetSortedAndPruneHypos partial_sort mgr).coll.m_coll.length = c.m_coll.length ∧
      (recycled (c.GetSortedAndPruneHypos partial_sort mgr).calls).length =
        c.m_coll.length - mgr.stack_size ∧
      ∀ h ∈ recycled (c.GetSortedAndPruneHypos partial_sort mgr).calls,
        h ∈ (c.GetSortedAndPruneHypos partial_sort mgr).coll.m_coll) := by
  refine ⟨GetSorted_m_coll partial_sort mgr c, fun hps hnone hk hkn => ?_⟩
  rw [GetSorted_m_coll]
  obtain ⟨hperm, _, _, hlen⟩ := SortAndPruneHypos_spec partial_sort hps mgr c.m_coll
  rw [GetSorted_of_none partial_sort mgr hnone]
  simp only
  generalize SortAndPruneHypos partial_sort mgr c.m_coll = r at hperm hlen
  rw [if_neg (by omega), min_eq_left (le_of_lt hkn)] at hlen
  have hl : (r.1 ++ recycled r.2).length = c.m_coll.length := hperm.length_eq
  rw [List.length_append, hlen] at hl
  exact ⟨trivial, by omega, fun h hh => hperm.mem_iff.1 (List.mem_append_right _ hh)⟩

/-- C16, at the scenario of the specification: pruning the bin of B, C, D to stack size
2 recycles D, and the container afterwards still holds B, C and D. -/
theorem GetSorted_container_untouched_witness :
    (binBCD.GetSortedAndPruneHypos insertion_partial_sort ⟨2, 1⟩).coll.m_coll =
      [hypB, hypC, hypD] ∧
    recycled (binBCD.GetSortedAndPruneHypos insertion_partial_sort ⟨2, 1⟩).calls = [hypD] ∧
    (binBCD.GetSortedAndPruneHypos insertion_partial_sort ⟨2, 1⟩).coll.m_coll = binBCD.m_coll :=
  ⟨by decide,
    by rw [GetSorted_calls_of_none insertion_partial_sort ⟨2, 1⟩ (by decide)]; decide,
    (GetSorted_container_untouched insertion_partial_sort ⟨2, 1⟩ binBCD).1⟩

end FrameTheorems

/-! ## Sequences of `Add` calls: who stays and who is reported -/

section SequenceLemmas

variable {K S : Type} [DecidableEq K]

/-- The in-place overwrite trades the element found for the candidate. -/
theorem set_found_perm {l : List (HypothesisBase K S)} {hypo : HypothesisBase K S}
    {it : Iterator K S} (h : _HCType.find hypo.key l = some it) :
    (l.set it.pos hypo ++ [it.deref]).Perm (l ++ [hypo]) := by
  induction l generalizing it with
  | nil => simp [_HCType.find] at h
  | cons e es ih =>
    by_cases hk : e.key = hypo.key
    · simp [_HCType.find, hk] at h
      subst h
      simp only [List.set_cons_zero, List.cons_append]
      have h1 : (hypo :: (es ++ [e])).Perm (hypo :: e :: es) :=
        List.Perm.cons hypo (List.perm_append_comm)
      have h2 : (e :: (es ++ [hypo])).Perm (e :: hypo :: es) :=
        List.Perm.cons e (List.perm_append_comm)
      exact h1.trans ((List.Perm.swap e hypo es).trans h2.symm)
    · simp only [_HCType.find, hk, if_false, Option.map_eq_some'] at h
      obtain ⟨it', h', rfl⟩ := h
      simp only [List.set_cons_succ, List.cons_append]
      exact List.Perm.cons e (@ih it' h')

variable [LinearOrder S]

/-- An `Add` leaves the member of every key other than the candidate's as it was. -/
theorem member_Add_other_key (c : HypothesisColl K S) (hypo : HypothesisBase K S) {k : K}
    (hk : k ≠ hypo.key) : (c.Add hypo).1.member k = c.member k := by
  cases hadd : (c.Add hypo).2.added with
  | true => rw [member_Add_of_added hadd k, if_neg hk]
  | false => rw [(Add_of_not_added hadd).1]

theorem AddAll_append (c : HypothesisColl K S) (l1 l2 : List (HypothesisBase K S)) :
    c.AddAll (l1 ++ l2) = (c.AddAll l1).AddAll l2 := by
  induction l1 generalizing c with
  | nil => rfl
  | cons h hs ih => exact ih (c.Add h).1

theorem AddAll_concat (c : HypothesisColl K S) (l : List (HypothesisBase K S))
    (h : HypothesisBase K S) : c.AddAll (l ++ [h]) = ((c.AddAll l).Add h).1 := by
  rw [AddAll_append]
  rfl

/-- One `Add`: the container afterwards and the loser reported are the container before
and the candidate. -/
theorem Add_loser_perm (c : HypothesisColl K S) (hypo : HypothesisBase K S) :
    ((c.Add hypo).1.m_coll ++ ((c.Add hypo).2.loser hypo).toList).Perm
      (c.m_coll ++ [hypo]) := by
  rcases Add_cases c hypo with ⟨_, he⟩ | ⟨it, hf, _, he⟩ | ⟨it, _, _, he⟩
  · rw [he]
    simp [StackAdd.loser]
  · rw [he]
    simpa [StackAdd.loser] using set_found_perm hf
  · rw [he]
    simp [StackAdd.loser]

/-- A sequence of `Add` calls: the container afterwards and the losers reported are the
container before and the hypotheses offered. -/
theorem AddAll_losers_perm (l : List (HypothesisBase K S)) (c : HypothesisColl K S) :
    ((c.AddAll l).m_coll ++ c.losers l).Perm (c.m_coll ++ l) := by
  induction l generalizing c with
  | nil => simp [HypothesisColl.AddAll, HypothesisColl.losers]
  | cons h hs ih =>
    have h1 := ih (c.Add h).1
    have h2 := Add_loser_perm c h
    simp only [HypothesisColl.AddAll, HypothesisColl.losers]
    generalize ((c.Add h).1.AddAll hs).m_coll = M at h1
    generalize (c.Add h).1.losers hs = Ls at h1
    generalize ((c.Add h).2.loser h).toList = lo at h2
    generalize (c.Add h).1.m_coll = m1 at h1 h2
    have e1 : (M ++ (lo ++ Ls)).Perm (lo ++ (M ++ Ls)) := by
      rw [← List.append_assoc, ← List.append_assoc]
      exact List.Perm.append_right Ls List.perm_append_comm
    have e2 : (lo ++ (M ++ Ls)).Perm (lo ++ (m1 ++ hs)) := List.Perm.append_left lo h1
    have e3 : (lo ++ (m1 ++ hs)).Perm ((m1 ++ lo) ++ hs) := by
      rw [← List.append_assoc]
      exact List.Perm.append_right hs List.perm_append_comm
    have e4 : ((m1 ++ lo) ++ hs).Perm ((c.m_coll ++ [h]) ++ hs) := List.Perm.append_right hs h2
    have e5 : (c.m_coll ++ [h]) ++ hs = c.m_coll ++ h :: hs := by simp
    exact e5 ▸ (e1.trans (e2.trans (e3.trans e4)))

/-- The bin after a sequence of `Add` calls on the empty bin, key by key: either no
hypothesis of that key was offered and the key has no member, or the member is an
offered hypothesis of that key that scores strictly more than every earlier offer of
the key and at least as much as every later one. -/
theorem AddAll_member_first_max (l : List (HypothesisBase K S)) (k : K) :
    ((HypothesisColl.empty : HypothesisColl K S).AddAll l).member k = none ∧
      (∀ h ∈ l, h.key ≠ k) ∨
    ∃ pre m post, l = pre ++ m :: post ∧ m.key = k ∧
      ((HypothesisColl.empty : HypothesisColl K S).AddAll l).member k = some m ∧
      (∀ h ∈ pre, h.key = k → h.futureScore < m.futureScore) ∧
      (∀ h ∈ post, h.key = k → h.futureScore ≤ m.futureScore) := by
  induction l using List.reverseRecOn with
  | nil => exact Or.inl ⟨rfl, by simp⟩
  | append_singleton l h ih =>
    rw [AddAll_concat]
    generalize (HypothesisColl.empty : HypothesisColl K S).AddAll l = c at ih
    by_cases hk : k = h.key
    · subst hk
      rcases Add_cases c h with ⟨hf, he⟩ | ⟨it, hf, hs, he⟩ | ⟨it, hf, hs, he⟩
      · have hadd : (c.Add h).2.added = true := by rw [he]
        refine Or.inr ⟨l, h, [], rfl, rfl, by rw [member_Add_of_added hadd, if_pos rfl], ?_,
          by simp⟩
        rcases ih with ⟨_, hno⟩ | ⟨pre, m, post, _, _, hm, _, _⟩
        · exact fun x hx hxk => absurd hxk (hno x hx)
        · simp [HypothesisColl.member, hf] at hm
      · have hadd : (c.Add h).2.added = true := by rw [he]
        refine Or.inr ⟨l, h, [], rfl, rfl, by rw [member_Add_of_added hadd, if_pos rfl], ?_,
          by simp⟩
        rcases ih with ⟨hm, _⟩ | ⟨pre, m, post, hl, _, hm, hpre, hpost⟩
        · simp [HypothesisColl.member, hf] at hm
        · have hme : it.deref = m := by simpa [HypothesisColl.member, hf] using hm
          rw [hme] at hs
          intro x hx hxk
          rw [hl] at hx
          rcases List.mem_append.1 hx with h1 | h1
          · exact lt_trans (hpre x h1 hxk) hs
          · rcases List.mem_cons.1 h1 with rfl | h2
            · exact hs
            · exact lt_of_le_of_lt (hpost x h2 hxk) hs
      · rw [he]
        rcases ih with ⟨hm, _⟩ | ⟨pre, m, post, hl, hmk, hm, hpre, hpost⟩
        · simp [HypothesisColl.member, hf] at hm
        · have hme : it.deref = m := by simpa [HypothesisColl.member, hf] using hm
          rw [hme] at hs
          refine Or.inr ⟨pre, m, post ++ [h], by simp [hl], hmk, hm, hpre, ?_⟩
          intro x hx hxk
          rcases List.mem_append.1 hx with h1 | h1
          · exact hpost x h1 hxk
          · have : x = h := by simpa using h1
            rw [this]
            exact not_lt.1 hs
    · rw [member_Add_other_key c h hk]
      rcases ih with ⟨hm, hno⟩ | ⟨pre, m, post, hl, hmk, hm, hpre, hpost⟩
      · refine Or.inl ⟨hm, fun x hx => ?_⟩
        rcases List.mem_append.1 hx with h1 | h1
        · exact hno x h1
        · have : x = h := by simpa using h1
          rw [this]
          exact fun hh => hk hh.symm
      · refine Or.inr ⟨pre, m, post ++ [h], by simp [hl], hmk, hm, hpre, ?_⟩
        intro x hx hxk
        rcases List.mem_append.1 hx with h1 | h1
        · exact hpost x h1 hxk
        · have : x = h := by simpa using h1
          rw [this] at hxk
          exact absurd hxk.symm hk

end SequenceLemmas

section SequenceTheorems

variable {K S : Type} [DecidableEq K] [LinearOrder S]

/-- C12: for every list of hypotheses offered in order to the empty bin and every key
`k` that occurs in it, the bin's member for `k` afterwards is an offered hypothesis `m`
of key `k`, at a place in the list such that every same-key hypothesis offered before
it scores strictly less and every same-key hypothesis offered after it scores at most
as much: `m` has the maximum score of its key and is the earliest offer that has it. -/
theorem first_one_wins (offered : List (HypothesisBase K S)) (k : K)
    (hk : ∃ h ∈ offered, h.key = k) :
    ∃ pre m post, offered = pre ++ m :: post ∧ m.key = k ∧
      ((HypothesisColl.empty : HypothesisColl K S).AddAll offered).member k = some m ∧
      (∀ h ∈ pre, h.key = k → h.futureScore < m.futureScore) ∧
      (∀ h ∈ post, h.key = k → h.futureScore ≤ m.futureScore) ∧
      (∀ h ∈ offered, h.key = k → h.futureScore ≤ m.futureScore) := by
  rcases AddAll_member_first_max offered k with ⟨_, hno⟩ | ⟨pre, m, post, hl, hmk, hm, hpre, hpost⟩
  · obtain ⟨h, hh, hhk⟩ := hk
    exact absurd hhk (hno h hh)
  · refine ⟨pre, m, post, hl, hmk, hm, hpre, hpost, fun x hx hxk => ?_⟩
    rw [hl] at hx
    rcases List.mem_append.1 hx with h1 | h1
    · exact le_of_lt (hpre x h1 hxk)
    · rcases List.mem_cons.1 h1 with rfl | h2
      · exact le_refl _
      · exact hpost x h2 hxk

/-- C12, on a tie: A(K1, 5), B(K1, 7) and E(K1, 7) are offered in this order; the member
for K1 afterwards is B, the first of the two hypotheses with the maximum score 7. -/
theorem first_one_wins_witness :
    (HypothesisColl.empty.AddAll [hypA, hypB, hypE]).member 1 = some hypB ∧
    ∃ pre m post, [hypA, hypB, hypE] = pre ++ m :: post ∧ m.key = 1 ∧
      (HypothesisColl.empty.AddAll [hypA, hypB, hypE]).member 1 = some m ∧
      (∀ h ∈ pre, h.key = 1 → h.futureScore < m.futureScore) ∧
      (∀ h ∈ post, h.key = 1 → h.futureScore ≤ m.futureScore) ∧
      (∀ h ∈ [hypA, hypB, hypE], h.key = 1 → h.futureScore ≤ m.futureScore) :=
  ⟨by decide, first_one_wins [hypA, hypB, hypE] 1 ⟨hypA, by decide, rfl⟩⟩

/-- C15: for every list of pairwise distinct hypotheses offered in order to the empty
bin, the bin's members afterwards together with the losers reported by the `Add`
results are a rearrangement of the offered hypotheses, without repetition: every
offered hypothesis is either a member or a reported loser, never both, each loser is
reported once, and nothing else is a member or a loser. -/
theorem no_hypothesis_lost (offered : List (HypothesisBase K S)) (hnd : offered.Nodup) :
    (((HypothesisColl.empty : HypothesisColl K S).AddAll offered).m_coll ++
      (HypothesisColl.empty : HypothesisColl K S).losers offered).Perm offered ∧
    ((HypothesisColl.empty : HypothesisColl K S).AddAll offered).m_coll.Nodup ∧
    ((HypothesisColl.empty : HypothesisColl K S).losers offered).Nodup ∧
    (∀ h ∈ offered,
      (h ∈ ((HypothesisColl.empty : HypothesisColl K S).AddAll offered).m_coll ∧
        h ∉ (HypothesisColl.empty : HypothesisColl K S).losers offered) ∨
      (h ∉ ((HypothesisColl.empty : HypothesisColl K S).AddAll offered).m_coll ∧
        h ∈ (HypothesisColl.empty : HypothesisColl K S).losers offered)) ∧
    (∀ h, h ∈ ((HypothesisColl.empty : HypothesisColl K S).AddAll offered).m_coll ∨
        h ∈ (HypothesisColl.empty : HypothesisColl K S).losers offered → h ∈ offered) := by
  have hperm := AddAll_losers_perm offered (HypothesisColl.empty : HypothesisColl K S)
  simp only [HypothesisColl.empty, List.nil_append] at hperm ⊢
  generalize (HypothesisColl.AddAll ⟨[], none⟩ offered).m_coll = M at hperm
  generalize HypothesisColl.losers (⟨[], none⟩ : HypothesisColl K S) offered = Ls at hperm
  have hnd2 : (M ++ Ls).Nodup := hperm.nodup_iff.2 hnd
  obtain ⟨hM, hL, hdisj⟩ := List.nodup_append.1 hnd2
  refine ⟨hperm, hM, hL, fun h hh => ?_, fun h hh => hperm.mem_iff.1 (List.mem_append.2 hh)⟩
  rcases List.mem_append.1 (hperm.mem_iff.2 hh) with h1 | h1
  · exact Or.inl ⟨h1, fun h2 => hdisj h1 h2⟩
  · exact Or.inr ⟨fun h2 => hdisj h2 h1, h1⟩

/-- C15, at the scenario of the specification extended by the tie: A, B, C, D, E are
offered; the members afterwards are B, C, D and the reported losers are A (displaced
by B) and E (rejected against B). -/
theorem no_hypothesis_lost_witness :
    (HypothesisColl.empty.AddAll [hypA, hypB, hypC, hypD, hypE]).m_coll =
      [hypB, hypC, hypD] ∧
    HypothesisColl.empty.losers [hypA, hypB, hypC, hypD, hypE] = [hypA, hypE] ∧
    ((HypothesisColl.empty.AddAll [hypA, hypB, hypC, hypD, hypE]).m_coll ++
      HypothesisColl.empty.losers [hypA, hypB, hypC, hypD, hypE]).Perm
      [hypA, hypB, hypC, hypD, hypE] :=
  ⟨by decide, by decide,
    (no_hypothesis_lost [hypA, hypB, hypC, hypD, hypE] (by decide)).1⟩

end SequenceTheorems

end Moses2

/-! # The MERT utility: theorems -/

namespace Mert

/-! ## `Scorer::score` -/

section ScoreTheorems

variable {D F : Type} [Zero F]

/-- The loop of `score` appends one zero for each remaining index. -/
theorem scoreLoop_eq (n i : Nat) (scores : List F) :
    Scorer.scoreLoop n i scores = scores ++ List.replicate (n - i) 0 := by
  generalize h : n - i = m
  induction m generalizing i scores with
  | zero =>
    rw [Scorer.scoreLoop, if_neg (by omega)]
    simp
  | succ m ih =>
    rw [Scorer.scoreLoop, if_pos (by omega), ih (i + 1) _ (by omega)]
    simp [List.replicate_succ]

/-- The three-argument `score` when score data is loaded. -/
theorem score_of_loaded (s : Scorer D) (candidates : candidates_t) (diffs : diffs_t)
    (scores : List F) (h : s._scoreData ≠ none) :
    s.score candidates diffs scores =
      (scores ++ List.replicate (1 + diffs.length) 0, Outcome.returned ()) := by
  have hn : s._scoreData.isNone = false := by
    cases hd : s._scoreData with
    | none => exact absurd hd h
    | some d => rfl
  simp only [Scorer.score, hn, scoreLoop_eq]
  simp [List.replicate_succ, Nat.add_comm 1]

/-- C18: the three-argument `score` of the base class throws "score data not loaded"
exactly when `_scoreData` is null, and then leaves `scores` as it was; otherwise it
returns after appending exactly `1 + |diffs|` zeros to `scores`, the earlier entries
staying in place, and the one-argument `score` then returns 0. -/
theorem score_base (s : Scorer D) (candidates : candidates_t) (diffs : diffs_t)
    (scores : List F) :
    ((s.score candidates diffs scores).2 = Outcome.thrown "score data not loaded" ↔
      s._scoreData = none) ∧
    (s._scoreData = none → (s.score candidates diffs scores).1 = scores) ∧
    (s._scoreData ≠ none →
      (s.score candidates diffs scores).2 = Outcome.returned () ∧
      (s.score candidates diffs scores).1 = scores ++ List.replicate (1 + diffs.length) 0) ∧
    (s._scoreData ≠ none → (s.scoreCandidates candidates : Outcome F) = Outcome.returned 0) := by
  cases hd : s._scoreData with
  | none =>
    have hs : s.score candidates diffs scores =
        (scores, Outcome.thrown "score data not loaded") := by
      simp [Scorer.score, hd]
    rw [hs]
    exact ⟨⟨fun _ => rfl, fun _ => rfl⟩, fun _ => rfl, fun h => absurd rfl h,
      fun h => absurd rfl h⟩
  | some d =>
    have hne : s._scoreData ≠ none := by simp [hd]
    refine ⟨?_, fun h => absurd h (by simp), fun _ => ?_, fun _ => ?_⟩
    · rw [score_of_loaded s candidates diffs scores hne]
      simp
    · rw [score_of_loaded s candidates diffs scores hne]
      exact ⟨rfl, rfl⟩
    · simp only [Scorer.scoreCandidates, score_of_loaded s candidates [] ([] : List F) hne]
      rfl

/-- C18, on a scorer as constructed and on one with score data set: the first throws and
leaves `[5]` as it is; the second appends three zeros for two diffs and its
one-argument `score` returns 0. -/
theorem score_base_witness :
    ((Scorer.new "bleu" : Scorer Unit).score [] [[], []] ([5] : List Int)) =
      ([5], Outcome.thrown "score data not loaded") ∧
    (((Scorer.new "bleu" : Scorer Unit).setScoreData (some ())).score [] [[], []]
      ([5] : List Int)).1 = [5, 0, 0, 0] ∧
    (((Scorer.new "bleu" : Scorer Unit).setScoreData (some ())).scoreCandidates []
      : Outcome Int) = Outcome.returned 0 :=
  ⟨by decide,
    ((score_base ((Scorer.new "bleu" : Scorer Unit).setScoreData (some ())) [] [[], []]
      ([5] : List Int)).2.2.1 (by decide)).2,
    (score_base ((Scorer.new "bleu" : Scorer Unit).setScoreData (some ())) [] [[], []]
      ([5] : List Int)).2.2.2 (by decide)⟩

end ScoreTheorems

/-! ## `FeatureData::getIndex` -/

/-- The function `getIndex(size_t)` never returns a name. -/
theorem getIndex_never_returns (fd : FeatureData) (idx : Nat) (name : String) :
    fd.getIndex idx ≠ Outcome.returned name := by
  unfold FeatureData.getIndex
  split
  · split <;> exact fun h => Outcome.noConfusion h
  · exact fun h => Outcome.noConfusion h

/-- C19, the code at a map with the single entry 0 to "first": for index 0, which has
an entry, `getIndex(size_t)` throws (with the message "there is no entry at index ")
where the name "first" is expected; for index 1, which has no entry, it does not throw
but reads through the `end()` iterator. The lookup by name, `getIndex(string)`, has
the test the right way round and returns the stored index. -/
theorem getIndex_throws_on_entry :
    FeatureData.getIndex ⟨[(0, "first")], [("first", 0)]⟩ 0 =
      Outcome.thrown "there is no entry at index " ∧
    FeatureData.getIndex ⟨[(0, "first")], [("first", 0)]⟩ 0 ≠ Outcome.returned "first" ∧
    FeatureData.getIndex ⟨[(0, "first")], [("first", 0)]⟩ 1 = Outcome.undefined ∧
    FeatureData.getIndexOfName ⟨[(0, "first")], [("first", 0)]⟩ "first" = 0 := by
  decide

/-! ## `Scorer::encode`: the tokens -/

section TokenLemmas

theorem tokens_nil : tokens [] = [] := by
  simp [tokens, List.splitOnP_nil]

theorem tokens_cons_space {c : Char} (cs : List Char) (hc : isspace c = true) :
    tokens (c :: cs) = tokens cs := by
  simp [tokens, List.splitOnP_cons, hc]

theorem tokens_cons_nonspace {c : Char} (cs : List Char) (hc : isspace c = false) :
    tokens (c :: cs) =
      (c :: cs.takeWhile (fun x => !isspace x)) :: tokens (cs.dropWhile (fun x => !isspace x)) := by
  induction cs generalizing c with
  | nil => simp [tokens, List.splitOnP_cons, List.splitOnP_nil, hc]
  | cons d ds ih =>
    by_cases hd : isspace d = true
    · simp [tokens, List.splitOnP_cons, hc, hd]
    · have hd' : isspace d = false := by simpa using hd
      have ih' := ih hd'
      obtain ⟨x, xs, hx⟩ : ∃ x xs, ds.splitOnP isspace = x :: xs := by
        cases h : ds.splitOnP isspace with
        | nil => exact absurd h (List.splitOnP_ne_nil _ _)
        | cons x xs => exact ⟨x, xs, rfl⟩
      simp only [tokens, List.splitOnP_cons, hd', hx, List.modifyHead_cons, Bool.false_eq_true,
        if_false, List.filter_cons, List.isEmpty_cons, Bool.not_false, if_true,
        List.cons.injEq] at ih'
      simp only [tokens, List.splitOnP_cons, hc, hd', hx, List.modifyHead_cons,
        Bool.false_eq_true, if_false, List.filter_cons, List.isEmpty_cons, Bool.not_false,
        if_true, List.takeWhile_cons, List.dropWhile_cons]
      rw [ih'.1.2, ih'.2]

theorem tokens_dropWhile (s : List Char) : tokens (s.dropWhile isspace) = tokens s := by
  induction s with
  | nil => rfl
  | cons c cs ih =>
    by_cases hc : isspace c = true
    · rw [List.dropWhile_cons_of_pos hc, ih, tokens_cons_space cs hc]
    · rw [List.dropWhile_cons_of_neg hc]

theorem dropWhile_head_not {p : Char → Bool} {s : List Char} {c : Char} {cs : List Char}
    (h : s.dropWhile p = c :: cs) : p c = false := by
  induction s with
  | nil => simp at h
  | cons d ds ih =>
    by_cases hd : p d = true
    · rw [List.dropWhile_cons_of_pos hd] at h
      exact ih h
    · rw [List.dropWhile_cons_of_neg hd] at h
      simp only [List.cons.injEq] at h
      rw [← h.1]
      simpa using hd

/-- The tokens of a line are what repeated extraction yields. -/
theorem tokens_of_extract (s : List Char) :
    (extract s = none ∧ tokens s = []) ∨
    ∃ t r, extract s = some (t, r) ∧ tokens s = t :: tokens r ∧ r.length < s.length := by
  cases h : s.dropWhile isspace with
  | nil =>
    refine Or.inl ⟨by simp [extract, h], ?_⟩
    rw [← tokens_dropWhile, h, tokens_nil]
  | cons c cs =>
    refine Or.inr ⟨c :: cs.takeWhile (fun x => !isspace x),
      cs.dropWhile (fun x => !isspace x), by simp only [extract, h], ?_, ?_⟩
    · rw [← tokens_dropWhile, h, tokens_cons_nonspace cs (dropWhile_head_not h)]
    · have h1 : (cs.dropWhile (fun x => !isspace x)).length ≤ cs.length :=
        (List.dropWhile_sublist _).length_le
      have h2 : (c :: cs).length ≤ s.length := by
        rw [← h]
        exact (List.dropWhile_sublist _).length_le
      simp only [List.length_cons] at h2
      omega

/-- The loop of `encode` runs its body on the tokens of the line, in order. -/
theorem encodeLoop_eq_foldl (preserveCase : Bool) (s : List Char)
    (st : List (List Char × Int) × List Int) :
    Scorer.encodeLoop preserveCase s st =
      (tokens s).foldl (fun st t => Scorer.encodeToken preserveCase t st) st := by
  generalize hn : s.length = n
  induction n using Nat.strong_induction_on generalizing s st with
  | _ n ih =>
    rcases tokens_of_extract s with ⟨he, ht⟩ | ⟨t, r, he, ht, hlt⟩
    · rw [Scorer.encodeLoop, ht]
      split
      · rfl
      · rename_i h
        rw [he] at h
        exact absurd h (by simp)
    · rw [Scorer.encodeLoop, ht]
      split
      · rename_i h
        rw [he] at h
        exact absurd h (by simp)
      · rename_i t' r' h
        rw [he] at h
        simp only [Option.some.injEq, Prod.mk.injEq] at h
        obtain ⟨rfl, rfl⟩ := h
        rw [ih r.length (by omega) r _ rfl]
        rfl

end TokenLemmas

/-! ## `Scorer::encode`: the table of codes -/

section TableLemmas

theorem toInt_of_lt {n : Nat} (h : n < 2147483648) : toInt n = (n : Int) := by
  simp only [toInt]
  omega

theorem toInt_injOn {m n : Nat} (hm : m < 2147483648) (hn : n < 2147483648)
    (h : toInt m = toInt n) : m = n := by
  rw [toInt_of_lt hm, toInt_of_lt hn] at h
  exact Int.ofNat.inj h

theorem codeTable_length (n : Nat) (seen : List (List Char)) :
    (codeTable n seen).length = seen.length := by
  induction seen generalizing n with
  | nil => rfl
  | cons t ts ih => simp [codeTable, ih]

theorem codeTable_concat (n : Nat) (seen : List (List Char)) (t : List Char) :
    codeTable n (seen ++ [t]) = codeTable n seen ++ [(t, toInt (n + seen.length))] := by
  induction seen generalizing n with
  | nil => simp [codeTable]
  | cons u us ih =>
    have := ih (n + 1)
    rw [show n + 1 + us.length = n + (us.length + 1) by omega] at this
    simp only [List.cons_append, codeTable, List.length_cons]
    exact congrArg (fun l => (u, toInt n) :: l) this

theorem find_codeTable_of_not_mem (n : Nat) {seen : List (List Char)} {t : List Char}
    (h : t ∉ seen) : find (codeTable n seen) t = none := by
  induction seen generalizing n with
  | nil => rfl
  | cons u us ih =>
    have hne : ¬ u = t := fun e => h (e ▸ List.mem_cons_self _ _)
    have hus : t ∉ us := fun e => h (List.mem_cons_of_mem _ e)
    simp [codeTable, find, hne, ih (n + 1) hus]

theorem find_codeTable_of_mem (n : Nat) {seen : List (List Char)} {t : List Char}
    (h : t ∈ seen) : find (codeTable n seen) t = some (toInt (n + position t seen)) := by
  induction seen generalizing n with
  | nil => simp at h
  | cons u us ih =>
    by_cases hu : u = t
    · simp [codeTable, find, position, hu]
    · have hus : t ∈ us := by
        rcases List.mem_cons.1 h with e | e
        · exact absurd e.symm hu
        · exact e
      simp only [codeTable, find, position, hu, if_false, ih (n + 1) hus]
      rw [show n + 1 + position t us = n + (position t us + 1) by omega]

theorem position_lt_length {seen : List (List Char)} {t : List Char} (h : t ∈ seen) :
    position t seen < seen.length := by
  induction seen with
  | nil => simp at h
  | cons u us ih =>
    by_cases hu : u = t
    · simp [position, hu]
    · have hus : t ∈ us := by
        rcases List.mem_cons.1 h with e | e
        · exact absurd e.symm hu
        · exact e
      simp only [position, hu, if_false, List.length_cons]
      exact Nat.succ_lt_succ (ih hus)

theorem position_of_not_mem {seen : List (List Char)} {t : List Char} (h : t ∉ seen) :
    position t seen = seen.length := by
  induction seen with
  | nil => rfl
  | cons u us ih =>
    have hne : ¬ u = t := fun e => h (e ▸ List.mem_cons_self _ _)
    have hus : t ∉ us := fun e => h (List.mem_cons_of_mem _ e)
    simp [position, hne, ih hus]

theorem getElem?_position {seen : List (List Char)} {t : List Char} (h : t ∈ seen) :
    seen[position t seen]? = some t := by
  induction seen with
  | nil => simp at h
  | cons u us ih =>
    by_cases hu : u = t
    · simp [position, hu]
    · have hus : t ∈ us := by
        rcases List.mem_cons.1 h with e | e
        · exact absurd e.symm hu
        · exact e
      simpa [position, hu] using ih hus

theorem position_inj {seen : List (List Char)} {t u : List Char} (ht : t ∈ seen)
    (hu : u ∈ seen) (h : position t seen = position u seen) : t = u := by
  have h1 := getElem?_position ht
  have h2 := getElem?_position hu
  rw [h, h2] at h1
  exact (Option.some.inj h1).symm

theorem position_append_of_mem {seen : List (List Char)} (more : List (List Char))
    {t : List Char} (h : t ∈ seen) : position t (seen ++ more) = position t seen := by
  induction seen with
  | nil => simp at h
  | cons u us ih =>
    by_cases hu : u = t
    · simp [position, hu]
    · have hus : t ∈ us := by
        rcases List.mem_cons.1 h with e | e
        · exact absurd e.symm hu
        · exact e
      simp [position, hu, ih hus]

theorem position_append_of_not_mem_self {seen : List (List Char)} {t : List Char}
    (h : t ∉ seen) : position t (seen ++ [t]) = seen.length := by
  induction seen with
  | nil => simp [position]
  | cons u us ih =>
    have hne : ¬ u = t := fun e => h (e ▸ List.mem_cons_self _ _)
    have hus : t ∉ us := fun e => h (List.mem_cons_of_mem _ e)
    simp [position, hne, ih hus]

/-- In a list without repetition the position of the element at place `k` is `k`. -/
theorem position_getElem {seen : List (List Char)} (hnd : seen.Nodup) {k : Nat}
    {t : List Char} (h : seen[k]? = some t) : position t seen = k := by
  induction seen generalizing k with
  | nil => simp at h
  | cons u us ih =>
    obtain ⟨hu, hus⟩ := List.nodup_cons.1 hnd
    cases k with
    | zero =>
      have : u = t := by simpa using h
      simp [position, this]
    | succ k =>
      have h' : us[k]? = some t := by simpa using h
      have hne : ¬ u = t := fun e => hu (e ▸ List.getElem?_mem h')
      simp [position, hne, ih hus h']

theorem mem_addFirst_self (seen : List (List Char)) (t : List Char) : t ∈ addFirst seen t := by
  by_cases h : t ∈ seen
  · simp [addFirst, h]
  · simp [addFirst, h]

theorem addFirst_extends (seen : List (List Char)) (t : List Char) :
    ∃ more, addFirst seen t = seen ++ more := by
  by_cases h : t ∈ seen
  · exact ⟨[], by simp [addFirst, h]⟩
  · exact ⟨[t], by simp [addFirst, h]⟩

theorem foldl_addFirst_extends (ts seen : List (List Char)) :
    ∃ more, ts.foldl addFirst seen = seen ++ more := by
  induction ts generalizing seen with
  | nil => exact ⟨[], by simp⟩
  | cons t ts ih =>
    obtain ⟨m1, h1⟩ := addFirst_extends seen t
    obtain ⟨m2, h2⟩ := ih (addFirst seen t)
    exact ⟨m1 ++ m2, by rw [List.foldl_cons, h2, h1, List.append_assoc]⟩

theorem mem_foldl_addFirst (ts seen : List (List Char)) {t : List Char}
    (h : t ∈ seen ∨ t ∈ ts) : t ∈ ts.foldl addFirst seen := by
  induction ts generalizing seen with
  | nil =>
    rcases h with h | h
    · exact h
    · simp at h
  | cons u us ih =>
    rw [List.foldl_cons]
    apply ih
    rcases h with h | h
    · obtain ⟨m, hm⟩ := addFirst_extends seen u
      exact Or.inl (hm ▸ List.mem_append_left _ h)
    · rcases List.mem_cons.1 h with rfl | h'
      · exact Or.inl (mem_addFirst_self seen t)
      · exact Or.inr h'

theorem foldl_addFirst_subset (ts seen : List (List Char)) {t : List Char}
    (h : t ∈ ts.foldl addFirst seen) : t ∈ seen ∨ t ∈ ts := by
  induction ts generalizing seen with
  | nil => exact Or.inl h
  | cons u us ih =>
    rw [List.foldl_cons] at h
    rcases ih (addFirst seen u) h with h1 | h1
    · by_cases hu : u ∈ seen
      · simp only [addFirst, hu, if_true] at h1
        exact Or.inl h1
      · simp only [addFirst, hu, if_false] at h1
        rcases List.mem_append.1 h1 with h2 | h2
        · exact Or.inl h2
        · exact Or.inr (by simpa using Or.inl (List.mem_singleton.1 h2))
    · exact Or.inr (List.mem_cons_of_mem _ h1)

theorem addFirst_nodup {seen : List (List Char)} (t : List Char) (h : seen.Nodup) :
    (addFirst seen t).Nodup := by
  by_cases ht : t ∈ seen
  · simpa [addFirst, ht] using h
  · simp only [addFirst, ht, if_false]
    exact List.nodup_append.2 ⟨h, List.nodup_singleton t, by simpa using ht⟩

theorem foldl_addFirst_nodup (ts : List (List Char)) {seen : List (List Char)}
    (h : seen.Nodup) : (ts.foldl addFirst seen).Nodup := by
  induction ts generalizing seen with
  | nil => exact h
  | cons t ts ih => exact ih (addFirst_nodup t h)

/-- Offering tokens that are all new and pairwise different adds them in order. -/
theorem foldl_addFirst_of_nodup (ts seen : List (List Char)) (h : (seen ++ ts).Nodup) :
    ts.foldl addFirst seen = seen ++ ts := by
  induction ts generalizing seen with
  | nil => simp
  | cons t ts ih =>
    have ht : t ∉ seen := by
      intro hin
      have := (List.nodup_append.1 h).2.2
      exact this hin (List.mem_cons_self _ _)
    rw [List.foldl_cons]
    simp only [addFirst, ht, if_false]
    have h' : ((seen ++ [t]) ++ ts).Nodup := by simpa using h
    rw [ih (seen ++ [t]) h']
    simp

/-- The position of a token that has been seen does not change when more are seen. -/
theorem position_foldl_addFirst (ts seen : List (List Char)) {t : List Char} (h : t ∈ seen) :
    position t (ts.foldl addFirst seen) = position t seen := by
  obtain ⟨more, hm⟩ := foldl_addFirst_extends ts seen
  rw [hm, position_append_of_mem more h]

end TableLemmas

/-! ## `Scorer::encode`: the codes -/

section EncodeLemmas

/-- The loop body on a table that numbers the tokens seen so far: the table then numbers
the tokens seen including this one, and the code appended is that of the token's
position. -/
theorem encodeToken_codeTable (preserveCase : Bool) (token : List Char)
    (seen : List (List Char)) (encoded : List Int) :
    Scorer.encodeToken preserveCase token (codeTable 0 seen, encoded) =
      (codeTable 0 (addFirst seen (normalise preserveCase token)),
        encoded ++ [toInt (position (normalise preserveCase token)
          (addFirst seen (normalise preserveCase token)))]) := by
  by_cases h : normalise preserveCase token ∈ seen
  · simp only [Scorer.encodeToken, find_codeTable_of_mem 0 h, addFirst, h, if_true]
    simp
  · simp only [Scorer.encodeToken, find_codeTable_of_not_mem 0 h, addFirst, h, if_false,
      codeTable_length, codeTable_concat]
    rw [position_append_of_not_mem_self h]
    simp

/-- The loop body run on a list of tokens. -/
theorem foldl_encodeToken_codeTable (preserveCase : Bool) (toks : List (List Char))
    (seen : List (List Char)) (encoded : List Int) :
    toks.foldl (fun st t => Scorer.encodeToken preserveCase t st) (codeTable 0 seen, encoded) =
      (codeTable 0 ((toks.map (normalise preserveCase)).foldl addFirst seen),
        encoded ++ toks.map (fun tok => toInt (position (normalise preserveCase tok)
          ((toks.map (normalise preserveCase)).foldl addFirst seen)))) := by
  induction toks generalizing seen encoded with
  | nil => simp
  | cons tok rest ih =>
    rw [List.foldl_cons, encodeToken_codeTable, ih]
    simp only [List.map_cons, List.foldl_cons, List.append_assoc, List.singleton_append]
    rw [position_foldl_addFirst _ _ (mem_addFirst_self seen (normalise preserveCase tok))]

/-- The loop body appends one code for each token, whatever the table holds. -/
theorem foldl_encodeToken_append (preserveCase : Bool) (toks : List (List Char))
    (table : List (List Char × Int)) (encoded : List Int) :
    (toks.foldl (fun st t => Scorer.encodeToken preserveCase t st) (table, encoded)).2 =
      encoded ++
        (toks.foldl (fun st t => Scorer.encodeToken preserveCase t st) (table, [])).2 ∧
    (toks.foldl (fun st t => Scorer.encodeToken preserveCase t st) (table, [])).2.length =
      toks.length ∧
    (toks.foldl (fun st t => Scorer.encodeToken preserveCase t st) (table, encoded)).1 =
      (toks.foldl (fun st t => Scorer.encodeToken preserveCase t st) (table, [])).1 := by
  induction toks using List.reverseRecOn generalizing encoded with
  | nil => simp
  | append_singleton toks t ih =>
    obtain ⟨h1, h2, h3⟩ := ih encoded
    simp only [List.foldl_append, List.foldl_cons, List.foldl_nil, List.length_append,
      List.length_singleton]
    generalize hA : toks.foldl (fun st t => Scorer.encodeToken preserveCase t st)
      (table, encoded) = A at h1 h3
    generalize hB : toks.foldl (fun st t => Scorer.encodeToken preserveCase t st)
      (table, []) = B at h1 h2 h3
    unfold Scorer.encodeToken
    simp only [h3]
    cases find B.1 (normalise preserveCase t) with
    | none => simp [h1, h2]
    | some code => simp [h1, h2]

variable {D : Type}

/-- One `encode` call on a scorer whose table numbers the tokens seen so far. -/
theorem encode_codeTable (s : Scorer D) (seen : List (List Char))
    (hs : s._encodings = codeTable 0 seen) (line : List Char) (encoded : List Int) :
    (s.encode line encoded).1._encodings =
      codeTable 0 (((tokens line).map (normalise s._preserveCase)).foldl addFirst seen) ∧
    (s.encode line encoded).1._preserveCase = s._preserveCase ∧
    (s.encode line encoded).2 =
      encoded ++ (tokens line).map (fun tok => toInt (position (normalise s._preserveCase tok)
        (((tokens line).map (normalise s._preserveCase)).foldl addFirst seen))) := by
  simp only [Scorer.encode, encodeLoop_eq_foldl, hs, foldl_encodeToken_codeTable]
  exact ⟨trivial, trivial, trivial⟩

/-- A sequence of `encode` calls on a scorer whose table numbers the tokens seen so
far: the table afterwards numbers all tokens seen, in the order of their first
occurrence, and each call yields the codes of the tokens of its line. -/
theorem encodeAll_codeTable (lines : List (List Char)) (s : Scorer D)
    (seen : List (List Char)) (hs : s._encodings = codeTable 0 seen) :
    (s.encodeAll lines).1._encodings =
      codeTable 0 (((lines.flatMap tokens).map (normalise s._preserveCase)).foldl
        addFirst seen) ∧
    (s.encodeAll lines).1._preserveCase = s._preserveCase ∧
    (s.encodeAll lines).2 =
      lines.map (fun line => (tokens line).map (fun tok =>
        toInt (position (normalise s._preserveCase tok)
          (((lines.flatMap tokens).map (normalise s._preserveCase)).foldl addFirst seen)))) := by
  induction lines generalizing s seen with
  | nil => exact ⟨by simpa [Scorer.encodeAll] using hs, rfl, rfl⟩
  | cons line rest ih =>
    obtain ⟨h1, h2, h3⟩ := encode_codeTable s seen hs line []
    obtain ⟨i1, i2, i3⟩ := ih (s.encode line []).1 _ h1
    rw [h2] at i1 i2 i3
    have hfold : ((((line :: rest).flatMap tokens).map (normalise s._preserveCase)).foldl
        addFirst seen) =
        ((rest.flatMap tokens).map (normalise s._preserveCase)).foldl addFirst
          (((tokens line).map (normalise s._preserveCase)).foldl addFirst seen) := by
      simp [List.flatMap_cons, List.foldl_append]
    rw [hfold]
    refine ⟨i1, i2, ?_⟩
    show (s.encode line []).2 :: ((s.encode line []).1.encodeAll rest).2 = _
    rw [i3, h3, List.map_cons, List.nil_append]
    have hhead : ∀ tok ∈ tokens line,
        toInt (position (normalise s._preserveCase tok)
          (((tokens line).map (normalise s._preserveCase)).foldl addFirst seen)) =
        toInt (position (normalise s._preserveCase tok)
          (((rest.flatMap tokens).map (normalise s._preserveCase)).foldl addFirst
            (((tokens line).map (normalise s._preserveCase)).foldl addFirst seen))) := by
      intro tok htok
      exact congrArg toInt (position_foldl_addFirst _ _
        (mem_foldl_addFirst _ _ (Or.inr (List.mem_map_of_mem _ htok)))).symm
    rw [List.map_congr_left hhead]

end EncodeLemmas

section EncodeTheorems

variable {D : Type}

/-- C17 (as amended): starting from an empty encodings table, and as long as at most
`2^31` distinct normalised tokens have been seen (codes are 32-bit `int`s), after any
sequence of `encode` calls: each call appends one code for each whitespace-separated
token of its line, in token order, the code being the position, counted from 0, of the
normalised token among the distinct normalised tokens in order of first occurrence;
these are the codes the table holds; two tokens have the same code if and only if they
are equal after normalisation; and the distinct token at position `k` has code `k`. A
call appends to whatever the vector `encoded` held. -/
theorem encode_codes (s : Scorer D) (lines : List (List Char)) (h0 : s._encodings = [])
    (hbound : (distinctTokens s._preserveCase lines).length ≤ 2147483648) :
    (s.encodeAll lines).2 =
      lines.map (fun line => (tokens line).map (fun tok =>
        (position (normalise s._preserveCase tok)
          (distinctTokens s._preserveCase lines) : Int))) ∧
    (∀ tok ∈ lines.flatMap tokens,
      (s.encodeAll lines).1.code tok =
        some (position (normalise s._preserveCase tok)
          (distinctTokens s._preserveCase lines) : Int)) ∧
    (∀ t1 ∈ lines.flatMap tokens, ∀ t2 ∈ lines.flatMap tokens,
      ((s.encodeAll lines).1.code t1 = (s.encodeAll lines).1.code t2 ↔
        normalise s._preserveCase t1 = normalise s._preserveCase t2)) ∧
    (∀ (k : Nat) (t : List Char), (distinctTokens s._preserveCase lines)[k]? = some t →
      find (s.encodeAll lines).1._encodings t = some (k : Int)) ∧
    (∀ (s2 : Scorer D) (line : List Char) (encoded : List Int),
      (s2.encode line encoded).2 = encoded ++ (s2.encode line []).2 ∧
      (s2.encode line []).2.length = (tokens line).length) := by
  have hs : s._encodings = codeTable 0 [] := h0
  obtain ⟨e1, e2, e3⟩ := encodeAll_codeTable lines s [] hs
  have hD : ((lines.flatMap tokens).map (normalise s._preserveCase)).foldl addFirst [] =
      distinctTokens s._preserveCase lines := rfl
  rw [hD] at e1 e3
  have hnd : (distinctTokens s._preserveCase lines).Nodup :=
    foldl_addFirst_nodup _ List.nodup_nil
  have hmem : ∀ tok ∈ lines.flatMap tokens,
      normalise s._preserveCase tok ∈ distinctTokens s._preserveCase lines :=
    fun tok htok => mem_foldl_addFirst _ _ (Or.inr (List.mem_map_of_mem _ htok))
  have hcast : ∀ tok ∈ lines.flatMap tokens,
      toInt (position (normalise s._preserveCase tok) (distinctTokens s._preserveCase lines)) =
        (position (normalise s._preserveCase tok)
          (distinctTokens s._preserveCase lines) : Int) :=
    fun tok htok => toInt_of_lt (lt_of_lt_of_le (position_lt_length (hmem tok htok)) hbound)
  have hcode : ∀ tok ∈ lines.flatMap tokens,
      (s.encodeAll lines).1.code tok =
        some (position (normalise s._preserveCase tok)
          (distinctTokens s._preserveCase lines) : Int) := by
    intro tok htok
    rw [Scorer.code, e1, e2, find_codeTable_of_mem 0 (hmem tok htok), Nat.zero_add,
      hcast tok htok]
  refine ⟨?_, hcode, fun t1 h1 t2 h2 => ?_, fun k t hk => ?_, fun s2 line encoded => ?_⟩
  · rw [e3]
    apply List.map_congr_left
    intro line hline
    apply List.map_congr_left
    intro tok htok
    exact hcast tok (List.mem_flatMap.2 ⟨line, hline, htok⟩)
  · rw [hcode t1 h1, hcode t2 h2]
    constructor
    · intro h
      have h' : position (normalise s._preserveCase t1) (distinctTokens s._preserveCase lines) =
          position (normalise s._preserveCase t2) (distinctTokens s._preserveCase lines) :=
        Int.ofNat.inj (Option.some.inj h)
      exact position_inj (hmem t1 h1) (hmem t2 h2) h'
    · intro h
      rw [h]
  · have ht : t ∈ distinctTokens s._preserveCase lines := List.getElem?_mem hk
    have hp := position_getElem hnd hk
    have hlt := position_lt_length ht
    rw [e1, find_codeTable_of_mem 0 ht, Nat.zero_add, hp, toInt_of_lt (by omega)]
  · have := foldl_encodeToken_append s2._preserveCase (tokens line) s2._encodings encoded
    simp only [Scorer.encode, encodeLoop_eq_foldl]
    exact ⟨this.1, this.2.1⟩

/-- C17 (as amended), on two lines: "The cat" and "the  Cat sat" are encoded by a
scorer as constructed (case is not preserved); the codes are `[0, 1]` and `[0, 1, 2]`. -/
theorem encode_codes_witness :
    distinctTokens false ["The cat".toList, "the  Cat sat".toList] =
      ["the".toList, "cat".toList, "sat".toList] ∧
    ((Scorer.new "bleu" : Scorer Unit).encodeAll
      ["The cat".toList, "the  Cat sat".toList]).2 = [[0, 1], [0, 1, 2]] :=
  ⟨by decide,
    (encode_codes (Scorer.new "bleu" : Scorer Unit) ["The cat".toList, "the  Cat sat".toList]
      rfl (by decide)).1.trans (by decide)⟩

end EncodeTheorems

/-! ## `Scorer::encode`: more than `2^31` distinct tokens -/

section ManyTokens

theorem binaryToken_chars (i : Nat) :
    ∀ c ∈ binaryToken i, c = Char.ofNat 98 ∨ c = Char.ofNat 97 := by
  intro c hc
  obtain ⟨j, _, hj⟩ := List.mem_map.1 hc
  rw [← hj]
  split
  · exact Or.inl rfl
  · exact Or.inr rfl

theorem binaryToken_ne_nil (i : Nat) : binaryToken i ≠ [] := by
  intro h
  have := congrArg List.length h
  simp [binaryToken] at this

theorem tokens_binaryToken (i : Nat) : tokens (binaryToken i) = [binaryToken i] := by
  have hsp : ∀ c ∈ binaryToken i, ¬ isspace c = true := by
    intro c hc
    rcases binaryToken_chars i c hc with rfl | rfl <;> decide
  have hne := binaryToken_ne_nil i
  rw [tokens, List.splitOnP_eq_single isspace _ hsp]
  cases h : binaryToken i with
  | nil => exact absurd h hne
  | cons c cs => rfl

theorem normalise_binaryToken (i : Nat) : normalise false (binaryToken i) = binaryToken i := by
  have hlow : ∀ c ∈ binaryToken i, tolower c = c := by
    intro c hc
    rcases binaryToken_chars i c hc with rfl | rfl <;> decide
  simp only [normalise, Bool.not_false, if_true]
  exact (List.map_congr_left hlow).trans (List.map_id _)

theorem binaryToken_inj {i j : Nat} (hi : i < 4294967296) (hj : j < 4294967296)
    (h : binaryToken i = binaryToken j) : i = j := by
  apply Nat.eq_of_testBit_eq
  intro b
  by_cases hb : b < 32
  · have hmem : b ∈ List.range 32 := List.mem_range.2 hb
    have := List.map_inj_left.1 h b hmem
    cases hib : i.testBit b <;> cases hjb : j.testBit b <;> simp [hib, hjb] at this ⊢
  · have h32 : (4294967296 : Nat) = 2 ^ 32 := by norm_num
    have hle : 2 ^ 32 ≤ 2 ^ b := Nat.pow_le_pow_right (by norm_num) (by omega)
    rw [Nat.testBit_lt_two_pow (lt_of_lt_of_le (h32 ▸ hi) hle),
      Nat.testBit_lt_two_pow (lt_of_lt_of_le (h32 ▸ hj) hle)]

/-- The first `n` binary tokens, `n` being at most `2^32`: they are pairwise different,
each is the one token of its line and is its own normalisation, so they are the
distinct tokens of these lines, and the token at place `k` is `binaryToken k`. -/
theorem binaryTokens_distinct (n : Nat) (hn : n ≤ 4294967296) :
    distinctTokens false ((List.range n).map binaryToken) = (List.range n).map binaryToken ∧
    ((List.range n).map binaryToken).Nodup ∧
    ∀ k, k < n → ((List.range n).map binaryToken)[k]? = some (binaryToken k) := by
  have hnd : ((List.range n).map binaryToken).Nodup := by
    apply List.Nodup.map_on _ (List.nodup_range n)
    intro x hx y hy hxy
    exact binaryToken_inj (lt_of_lt_of_le (List.mem_range.1 hx) hn)
      (lt_of_lt_of_le (List.mem_range.1 hy) hn) hxy
  have hflat : ∀ l : List Nat, (l.map binaryToken).flatMap tokens = l.map binaryToken := by
    intro l
    induction l with
    | nil => rfl
    | cons a l ih => simp [List.flatMap_cons, tokens_binaryToken, ih]
  have hnorm : ∀ l : List Nat,
      (l.map binaryToken).map (normalise false) = l.map binaryToken := by
    intro l
    induction l with
    | nil => rfl
    | cons a l ih => simp only [List.map_cons, normalise_binaryToken, ih]
  refine ⟨?_, hnd, fun k hk => ?_⟩
  · rw [distinctTokens, hflat, hnorm,
      foldl_addFirst_of_nodup _ [] (by simpa using hnd), List.nil_append]
  · rw [List.getElem?_map, List.getElem?_range hk]
    rfl

/-- C17, as stated, fails once more than `2^31` distinct tokens have been seen: a scorer
as constructed encodes the `2^31 + 1` one-token lines of `manyLines`; the token of the
last line is the distinct token number `2^31 + 1`, and the code the table holds for it
is `-2147483648`, not `2147483648`. -/
theorem encode_code_wraps :
    (distinctTokens false manyLines)[2147483648]? = some (binaryToken 2147483648) ∧
    ((Scorer.new "bleu" : Scorer Unit).encodeAll manyLines).1.code (binaryToken 2147483648) =
      some (-2147483648) ∧
    ((Scorer.new "bleu" : Scorer Unit).encodeAll manyLines).1.code (binaryToken 2147483648) ≠
      some 2147483648 := by
  obtain ⟨hD, hnd, hget⟩ := binaryTokens_distinct 2147483649 (by norm_num)
  have hk := hget 2147483648 (by norm_num)
  obtain ⟨e1, e2, _⟩ := encodeAll_codeTable manyLines (Scorer.new "bleu" : Scorer Unit) [] rfl
  have hD2 : distinctTokens false manyLines = manyLines := hD
  have hfold : ((manyLines.flatMap tokens).map
      (normalise (Scorer.new "bleu" : Scorer Unit)._preserveCase)).foldl addFirst [] =
      manyLines := hD
  rw [hfold] at e1
  have hmem : binaryToken 2147483648 ∈ manyLines := List.getElem?_mem hk
  have hpos : position (binaryToken 2147483648) manyLines = 2147483648 :=
    position_getElem hnd hk
  have hcode : ((Scorer.new "bleu" : Scorer Unit).encodeAll manyLines).1.code
      (binaryToken 2147483648) = some (-2147483648) := by
    rw [Scorer.code, e1, e2]
    show find (codeTable 0 manyLines) (normalise false (binaryToken 2147483648)) = _
    rw [normalise_binaryToken, find_codeTable_of_mem 0 hmem, hpos]
    rfl
  refine ⟨by rw [hD2]; exact hk, hcode, ?_⟩
  rw [hcode]
  decide

end ManyTokens

end Mert
